

import Mathlib

/-!
Verification of the ForceSensorController core (boa.py and scale.py).

Numbers are embedded as exact rationals.  The Python floats of the source are
modelled by ℚ; the trailing `round(·, prec=100)` inside `LoadCellControl._round`
exists only to absorb binary floating-point representation drift and is the
identity in this exact-arithmetic semantics, so it is not modelled separately.
-/

set_option maxHeartbeats 1000000

set_option maxRecDepth 4000

/-- Model of the Python 3 builtin `round(x)`: round to the nearest integer,
with ties (fractional part exactly 1/2) resolved to the even integer. -/
def pyRound (q : ℚ) : ℤ :=
  if q - (Int.floor q : ℚ) < 1/2 then Int.floor q
  else if 1/2 < q - (Int.floor q : ℚ) then Int.floor q + 1
  else if 2 ∣ Int.floor q then Int.floor q else Int.floor q + 1

/-- `LoadCellControl._round(x, base)`: `round(base * round(float(x) / base), prec)`,
the time `x` rounded to the nearest multiple of `base` (ties to even multiple). -/
def _round (x base : ℚ) : ℚ :=
  base * pyRound (x / base)

/-! ### The downsampling dictionary of `LoadCellControl._downSampleReadings` -/

/-- A raw reading: (timestamp in seconds, value). -/
abbrev Reading := ℚ × ℚ

/-- One iteration of the grouping loop in `_downSampleReadings`: Python appends
`val` to `d[roundedTime]` when the key is present, otherwise inserts the fresh
key at the end (dict insertion order). -/
def addToDict : List (ℚ × List ℚ) → ℚ → ℚ → List (ℚ × List ℚ)
  | [], rt, v => [(rt, [v])]
  | (k, vs) :: rest, rt, v =>
    if k = rt then (k, vs ++ [v]) :: rest else (k, vs) :: addToDict rest rt v

/-- The dict built by the grouping loop of `_downSampleReadings`, keyed by
rounded time, holding the list of values at each rounded time. -/
def buildDict (readings : List Reading) (sampleInterval : ℚ) : List (ℚ × List ℚ) :=
  readings.foldl (fun d r => addToDict d (_round r.1 sampleInterval) r.2) []

/-- The comparison used by `result.sort(key=lambda t: t[0])`. -/
def keyLe (a b : ℚ × ℚ × ℕ) : Prop := a.1 ≤ b.1

instance : DecidableRel keyLe := fun a b => inferInstanceAs (Decidable (a.1 ≤ b.1))

instance : IsTotal (ℚ × ℚ × ℕ) keyLe := ⟨fun a b => le_total a.1 b.1⟩

instance : IsTrans (ℚ × ℚ × ℕ) keyLe := ⟨fun _ _ _ h1 h2 => le_trans h1 h2⟩

/-- `LoadCellControl._downSampleReadings(readings, sampleInterval)`: rounds all
times to multiples of the interval, groups equal rounded times, averages each
group, and sorts the resulting (roundedTime, mean, count) triples by time. -/
def _downSampleReadings (readings : List Reading) (sampleInterval : ℚ) : List (ℚ × ℚ × ℕ) :=
  List.insertionSort keyLe
    ((buildDict readings sampleInterval).map fun e => (e.1, e.2.sum / (e.2.length : ℚ), e.2.length))

/-- The values of the readings that round to bucket `k` (in reading order). -/
def bucketVals (readings : List Reading) (base k : ℚ) : List ℚ :=
  (readings.filter fun r => _round r.1 base = k).map Prod.snd

/-- The downsampled triple of bucket `k`. -/
def bucket (readings : List Reading) (base k : ℚ) : ℚ × ℚ × ℕ :=
  (k, (bucketVals readings base k).sum / ((bucketVals readings base k).length : ℚ),
    (bucketVals readings base k).length)

/-- Invariant of the grouping dict relative to the readings processed so far. -/
structure DictInv (base : ℚ) (d : List (ℚ × List ℚ)) (l : List Reading) : Prop where
  nodupKeys : (d.map Prod.fst).Nodup
  memKeys : ∀ k, k ∈ d.map Prod.fst ↔ ∃ r ∈ l, _round r.1 base = k
  entries : ∀ e ∈ d, e.2 = bucketVals l base e.1

/-! ### The series buffer state machine of `LoadCellControl` -/

/-- The state of `LoadCellControl` touched by `addReadings` and `clear`:
`self.data` (a deque of (time, value) pairs with maxlen `self.length`) and
`self.numSamplesLastReading`. -/
structure LCState where
  data : List (ℚ × ℚ)
  numSamplesLastReading : ℕ
deriving DecidableEq

/-- `collections.deque(maxlen = cap).extend(new)`: append on the right,
evicting the oldest (leftmost) entries once the length exceeds `cap`. -/
def dequeExtend (cap : ℕ) (l new : List (ℚ × ℚ)) : List (ℚ × ℚ) :=
  (l ++ new).drop (l.length + new.length - cap)

/-- `LoadCellControl.clear()`: reset `numSamplesLastReading` and empty the buffer. -/
def LCState.clear (_st : LCState) : LCState := ⟨[], 0⟩

/-- `LoadCellControl.addReadings(readings)` with sample rate `sampleRate` and
buffer capacity `cap` (`self.length`, 100000 in the source).  An empty batch is
a no-op.  Otherwise the batch is downsampled; if the first downsampled bucket
lies within one sample interval of the last buffer entry, that entry is replaced
by the count-weighted average and the remaining buckets are appended, else all
buckets are appended; `numSamplesLastReading` becomes the merged count in the
first case and the last bucket count in the second.  The `[]` downsample case
cannot arise for a non-empty batch (`downSample_ne_nil`). -/
def addReadings (cap : ℕ) (sampleRate : ℚ) (st : LCState) (readings : List Reading) : LCState :=
  if readings.length < 1 then st
  else
    let sampleInterval := 1 / sampleRate
    match _downSampleReadings readings sampleInterval, st.data.getLast? with
    | [], _ => st
    | (t, v, n) :: rest, some (lastTime, lastVal) =>
      if |t - lastTime| < sampleInterval then
        let nslr := st.numSamplesLastReading
        let avgVal := (lastVal * (nslr : ℚ) + v * (n : ℚ)) / ((nslr : ℚ) + (n : ℚ))
        let newestTime := max t lastTime
        ⟨dequeExtend cap (st.data.dropLast ++ [(newestTime, avgVal)])
            (rest.map fun e => (e.1, e.2.1)),
          nslr + n⟩
      else
        ⟨dequeExtend cap st.data (((t, v, n) :: rest).map fun e => (e.1, e.2.1)),
          (((t, v, n) :: rest).getLast (List.cons_ne_nil _ _)).2.2⟩
    | (t, v, n) :: rest, none =>
      ⟨dequeExtend cap st.data (((t, v, n) :: rest).map fun e => (e.1, e.2.1)),
        (((t, v, n) :: rest).getLast (List.cons_ne_nil _ _)).2.2⟩

/-! ### The bounded sample queue of `scale.py` -/

/-- The overflow-handling push in `SerialReader.run`: while the readings queue
is full (a `multiprocessing.Queue(maxsize = cap)` with positive `cap` is full
exactly when it holds `cap` items) the oldest entry is removed, then the new
pair is put.  The while loop is modelled by dropping oldest entries until the
length is below `cap`. -/
def pushReading {α : Type _} (cap : ℕ) (q : List α) (x : α) : List α :=
  q.drop (q.length + 1 - cap) ++ [x]

/-- `SerialScale.read()`: repeatedly `get()` until the queue is empty,
returning the readings in FIFO order and leaving the queue empty. -/
def readAll {α : Type _} (q : List α) : List α × List α := (q, [])

/-! ### The calibration engine -/

/-- The unit symbols of the fixed table `Calibration.CONVERSIONS`. -/
inductive ForceUnit where
  | N : ForceUnit
  | kg : ForceUnit
  | lbs : ForceUnit
deriving DecidableEq

/-- `Calibration.CONVERSIONS`: 1 N = 0.101971621298 kg = 0.2248089431 lbs,
as exact rationals. -/
def CONVERSIONS : ForceUnit → ℚ
  | .N => 1
  | .kg => 101971621298 / 10^12
  | .lbs => 2248089431 / 10^10

/-- `Calibration.convertBetween(x, fromUnits, toUnits)`. -/
def convertBetween (x : ℚ) (fromUnits toUnits : ForceUnit) : ℚ :=
  x * (CONVERSIONS toUnits / CONVERSIONS fromUnits)

/-- `Calibration.Fit`: slope and intercept of the conversion line, in Newtons. -/
structure Fit where
  m : ℚ
  b : ℚ
deriving DecidableEq

/-- `Fit.measured2real(inp, toUnits)`: apply the line, then convert N to `toUnits`. -/
def Fit.measured2real (f : Fit) (inp : ℚ) (toUnits : ForceUnit) : ℚ :=
  convertBetween (f.m * inp + f.b) .N toUnits

/-- `Fit.real2measured(inp, fromUnits)`: convert `inp` to N, then apply the
inverse line with slope `1/m` and intercept `-b/m`. -/
def Fit.real2measured (f : Fit) (inp : ℚ) (fromUnits : ForceUnit) : ℚ :=
  (1 / f.m) * convertBetween inp fromUnits .N + (-f.b / f.m)

/-- Modelled from the library call `np.polyfit(x, y, 1)` made by
`Calibration.fitLine` with warnings suppressed.  On full-rank input (not all
measured values equal) it returns the unique ordinary-least-squares line.  On
rank-deficient input whose common measured value `a` is nonzero it returns the
minimum-norm solution of the column-scaled system, `(ybar/(2a), ybar/2)`; for
example `np.polyfit([1,1],[2,3],1)` is `(1.25, 1.25)`.  When every measured
value is zero the column scaling divides by zero and the least-squares call
fails with a LinAlgError (returned here as `none`), which is NOT a ValueError. -/
def np_polyfit1 (pts : List (ℚ × ℚ)) : Option (ℚ × ℚ) :=
  let n : ℚ := pts.length
  let xbar := (pts.map Prod.fst).sum / n
  let ybar := (pts.map Prod.snd).sum / n
  let sxx := (pts.map fun p => (p.1 - xbar)^2).sum
  let sxy := (pts.map fun p => (p.1 - xbar) * (p.2 - ybar)).sum
  if sxx ≠ 0 then some (sxy / sxx, ybar - (sxy / sxx) * xbar)
  else if xbar ≠ 0 then some (ybar / (2 * xbar), ybar / 2)
  else none

/-- `Calibration.fitLine(pts)`: fewer than 2 points yields no fit (`ok none`);
otherwise `np.polyfit` is called inside a `try` that catches only `ValueError`
(yielding no fit); a LinAlgError escapes `fitLine`, modelled as `Except.error`.
For 2 or more finite points `np.polyfit` raises no ValueError, so the catch
branch is unreachable in this model. -/
def fitLine (pts : List (ℚ × ℚ)) : Except String (Option Fit) :=
  if pts.length < 2 then .ok none
  else
    match np_polyfit1 pts with
    | some (m, b) => .ok (some ⟨m, b⟩)
    | none => .error "LinAlgError"

/-- `Calibration`: the (measured, real-in-Newtons) points and the current fit. -/
structure Calibration where
  pts : List (ℚ × ℚ)
  fit : Option Fit
deriving DecidableEq

/-- `Calibration.hasFit()`. -/
def Calibration.hasFit (c : Calibration) : Bool := c.fit.isSome

/-- `Calibration.addPoint(pt, units)`: convert the real value to Newtons,
ignore duplicates, otherwise append the point and recompute the fit. -/
def Calibration.addPoint (c : Calibration) (pt : ℚ × ℚ) (units : ForceUnit) :
    Except String Calibration :=
  let p := (pt.1, convertBetween pt.2 units .N)
  if p ∈ c.pts then .ok c
  else do
    let f ← fitLine (c.pts ++ [p])
    .ok ⟨c.pts ++ [p], f⟩

/-- `Calibration(pts = ...)`: start empty and `addPoint` each pair (unit N). -/
def calibrationOfPts (pts : List (ℚ × ℚ)) : Except String Calibration :=
  pts.foldlM (fun c p => c.addPoint p .N) ⟨[], none⟩

/-- Modelled from the spec: the forward conversion exposed to collaborators
(the GUI layer, absent from src/) reports "uncalibrated" when no fit exists
and otherwise applies `Fit.measured2real`. -/
def Calibration.forward (c : Calibration) (v : ℚ) (u : ForceUnit) : Except String ℚ :=
  match c.fit with
  | none => .error "uncalibrated"
  | some f => .ok (f.measured2real v u)

/-- Modelled from the spec: the inverse conversion exposed to collaborators
(the GUI layer, absent from src/) reports "uncalibrated" when no fit exists
and otherwise applies `Fit.real2measured`. -/
def Calibration.inverse (c : Calibration) (v : ℚ) (u : ForceUnit) : Except String ℚ :=
  match c.fit with
  | none => .error "uncalibrated"
  | some f => .ok (f.real2measured v u)

/-! ### Recording export (`LoadCellControl.saveRecording`) -/

/-- `np.searchsorted(times, v)` with the default side "left" on an ascending
array: the index of the first element that is `v` or larger, equivalently the
number of elements strictly below `v`. -/
def searchsortedLeft (times : List ℚ) (v : ℚ) : ℕ := times.countP (fun x => x < v)

/-- `LoadCellControl.saveRecording(filename, startTime, stopTime)`: an empty
buffer writes nothing; otherwise the rows `arr[ilo:ihi]` are written after a
header row, where `ilo` and `ihi` are the left insertion points of `startTime`
and `stopTime` in the time column; when `ilo == ihi` the method returns early
and writes no file at all, not even the header.  The result is the list of
data rows written, or `none` when nothing is written. -/
def saveRecording (data : List (ℚ × ℚ)) (startTime stopTime : ℚ) :
    Option (List (ℚ × ℚ)) :=
  if data.length < 1 then none
  else
    let ilo := searchsortedLeft (data.map Prod.fst) startTime
    let ihi := searchsortedLeft (data.map Prod.fst) stopTime
    if ilo = ihi then none
    else some ((data.drop ilo).take (ihi - ilo))

/-! ### Scale selection (`LoadCellControl.useScale`) -/

/-- A scale as seen from `LoadCellControl`: its display name (`str(s)`) and
the pending readings queue of its background reader. -/
structure ScaleHandle where
  name : String
  queue : List Reading
deriving DecidableEq

/-- The reference held in `self.scale`. -/
inductive Selection where
  | none : Selection
  | randomGenerator : Selection
  | scaleIdx : ℕ → Selection
deriving DecidableEq

/-- The state of `LoadCellControl` read or written by `useScale`. -/
structure AppState where
  data : List (ℚ × ℚ)
  numSamplesLastReading : ℕ
  calibration : Calibration
  scales : List ScaleHandle
  scale : Selection
deriving DecidableEq

/-- Drain the pending queue of the scale at index `i` (the `self.scale.read()`
call made right after a matching scale is selected). -/
def drainAt : List ScaleHandle → ℕ → List ScaleHandle
  | [], _ => []
  | s :: rest, 0 => { s with queue := [] } :: rest
  | s :: rest, i + 1 => s :: drainAt rest i

/-- `LoadCellControl.useScale(name)`: the reserved name "Select..." clears the
selection; "Random Generator" selects the synthetic source; otherwise the
first known scale whose display name matches is selected and its pending
queue drained; a name matching nothing falls through the loop and changes
nothing. -/
def findScale : List ScaleHandle → String → Option ℕ
  | [], _ => Option.none
  | s :: rest, name =>
    if s.name = name then some 0 else (findScale rest name).map (· + 1)

def useScale (st : AppState) (name : String) : AppState :=
  if name = "Select..." then { st with scale := Selection.none }
  else if name = "Random Generator" then { st with scale := Selection.randomGenerator }
  else
    match findScale st.scales name with
    | some i => { st with scale := Selection.scaleIdx i, scales := drainAt st.scales i }
    | Option.none => st

/-! ### The Series Buffer time invariant -/

/-- Invariant of the series buffer: strictly ascending times, all bounded by
the rounded high-water mark. -/
def BufInv (base : ℚ) (st : LCState) (H : ℚ) : Prop :=
  st.data.Pairwise (fun p q => p.1 < q.1) ∧ ∀ p ∈ st.data, p.1 ≤ _round H base

/-- Reachability of a `LoadCellControl` state through `clear` and ordered
ingests at fixed sample rate `r` and capacity `cap`.  The ghost parameter `H`
bounds every raw timestamp ingested so far; each new batch lies in the window
from `H` to the new bound — the spec precondition that batches arrive in
non-decreasing time order. -/
inductive Reachable (cap : ℕ) (r : ℚ) : LCState → ℚ → Prop where
  | init (H : ℚ) : Reachable cap r ⟨[], 0⟩ H
  | clear (st : LCState) (H H' : ℚ) :
      Reachable cap r st H → H ≤ H' → Reachable cap r st.clear H'
  | step (st : LCState) (H H' : ℚ) (batch : List Reading) :
      Reachable cap r st H → (∀ p ∈ batch, H ≤ p.1 ∧ p.1 ≤ H') → H ≤ H' →
      Reachable cap r (addReadings cap r st batch) H'

/-! ### Batch-split invariance of ingest -/

theorem pyRound_intCast (n : ℤ) : pyRound (n : ℚ) = n := by
  simp [pyRound]

/-- `pyRound` moves its argument by at most 1/2. -/
theorem abs_pyRound_sub_le (q : ℚ) : |(pyRound q : ℚ) - q| ≤ 1/2 := by
  have hfl : (Int.floor q : ℚ) ≤ q := Int.floor_le q
  have hfu : q < (Int.floor q : ℚ) + 1 := Int.lt_floor_add_one q
  unfold pyRound
  split_ifs with h1 h2 h3
  · rw [abs_sub_comm, abs_of_nonneg (by linarith)]
    linarith
  · push_cast
    rw [abs_of_nonneg (by linarith)]
    push_neg at h1
    linarith
  · push_neg at h1 h2
    rw [abs_sub_comm, abs_of_nonneg (by linarith)]
    linarith
  · push_neg at h1 h2
    push_cast
    rw [abs_of_nonneg (by linarith)]
    linarith

/-- `pyRound` is monotone. -/
theorem pyRound_mono {x y : ℚ} (h : x ≤ y) : pyRound x ≤ pyRound y := by
  have hfxy : Int.floor x ≤ Int.floor y := Int.floor_le_floor h
  have hx_ub : pyRound x ≤ Int.floor x + 1 := by
    unfold pyRound
    split_ifs <;> omega
  have hy_lb : Int.floor y ≤ pyRound y := by
    unfold pyRound
    split_ifs <;> omega
  rcases lt_or_eq_of_le hfxy with hlt | heq
  · omega
  · unfold pyRound
    rw [heq]
    split_ifs <;> first | omega | (exfalso; push_neg at *; linarith)

theorem _round_mono {base : ℚ} (hb : 0 < base) {x y : ℚ} (h : x ≤ y) :
    _round x base ≤ _round y base := by
  unfold _round
  have h2 : x / base ≤ y / base := by
    apply div_le_div_of_nonneg_right h hb.le
  have h3 : pyRound (x / base) ≤ pyRound (y / base) := pyRound_mono h2
  have h4 : ((pyRound (x / base) : ℚ)) ≤ ((pyRound (y / base) : ℚ)) := by exact_mod_cast h3
  exact mul_le_mul_of_nonneg_left h4 (le_of_lt hb)

/-- `_round` lands within `base/2` of the input, for a positive base. -/
theorem abs_round_sub_le {base : ℚ} (hb : 0 < base) (x : ℚ) :
    |_round x base - x| ≤ base / 2 := by
  have h := abs_pyRound_sub_le (x / base)
  have hbne : base ≠ 0 := ne_of_gt hb
  have : _round x base - x = base * ((pyRound (x / base) : ℚ) - x / base) := by
    field_simp [_round]
    ring
  rw [this, abs_mul, abs_of_pos hb]
  calc base * |(pyRound (x / base) : ℚ) - x / base| ≤ base * (1/2) :=
        mul_le_mul_of_nonneg_left h (le_of_lt hb)
    _ = base / 2 := by ring

/-- `_round x base` is an integer multiple of `base`. -/
theorem _round_eq_int_mul (x base : ℚ) : _round x base = base * (pyRound (x / base) : ℚ) := rfl

/-- Distinct values of `_round` at the same positive base differ by at least `base`. -/
theorem _round_gap {base : ℚ} (hb : 0 < base) {x y : ℚ}
    (hne : _round x base ≠ _round y base) : base ≤ |_round x base - _round y base| := by
  rw [_round_eq_int_mul, _round_eq_int_mul] at *
  set m := pyRound (x / base)
  set n := pyRound (y / base)
  have hmn : m ≠ n := by
    intro h
    exact hne (by rw [h])
  have h1 : (1 : ℚ) ≤ |(m : ℚ) - (n : ℚ)| := by
    have h0 : (1 : ℤ) ≤ |m - n| := Int.one_le_abs (by omega)
    calc (1 : ℚ) = ((1 : ℤ) : ℚ) := by norm_num
      _ ≤ ((|m - n| : ℤ) : ℚ) := by exact_mod_cast h0
      _ = |(m : ℚ) - (n : ℚ)| := by rw [Int.cast_abs]; push_cast; ring_nf
  have : base * (m : ℚ) - base * (n : ℚ) = base * ((m : ℚ) - (n : ℚ)) := by ring
  rw [this, abs_mul, abs_of_pos hb]
  calc base = base * 1 := by ring
    _ ≤ base * |(m : ℚ) - (n : ℚ)| := mul_le_mul_of_nonneg_left h1 (le_of_lt hb)

/-- C9: rounding an already-rounded time to the same interval returns the same value. -/
theorem round_idempotent {base : ℚ} (hb : 0 < base) (t : ℚ) :
    _round (_round t base) base = _round t base := by
  have hbne : base ≠ 0 := ne_of_gt hb
  unfold _round
  rw [mul_comm base ((pyRound (t / base) : ℚ)), mul_div_assoc, div_self hbne, mul_one,
    pyRound_intCast, mul_comm]

theorem round_idempotent_witness :
    _round (_round (3/10) 2) 2 = _round (3/10) 2 := round_idempotent (by norm_num) (3/10)

theorem bucketVals_append (l1 l2 : List Reading) (base k : ℚ) :
    bucketVals (l1 ++ l2) base k = bucketVals l1 base k ++ bucketVals l2 base k := by
  simp [bucketVals, List.filter_append]

theorem bucketVals_eq_nil {l : List Reading} {base k : ℚ}
    (h : ∀ r ∈ l, _round r.1 base ≠ k) : bucketVals l base k = [] := by
  have : l.filter (fun r => _round r.1 base = k) = [] := by
    apply List.filter_eq_nil_iff.mpr
    intro a ha
    simp [h a ha]
  simp [bucketVals, this]

theorem addToDict_keys (d : List (ℚ × List ℚ)) (rt v : ℚ) :
    (addToDict d rt v).map Prod.fst =
      if rt ∈ d.map Prod.fst then d.map Prod.fst else d.map Prod.fst ++ [rt] := by
  induction d with
  | nil => simp [addToDict]
  | cons e rest ih =>
    obtain ⟨k, vs⟩ := e
    by_cases hk : k = rt
    · subst hk
      simp [addToDict]
    · simp only [addToDict, if_neg hk, List.map_cons, ih]
      have : (rt ∈ k :: rest.map Prod.fst) ↔ (rt ∈ rest.map Prod.fst) := by
        simp [List.mem_cons, Ne.symm hk]
      by_cases hmem : rt ∈ rest.map Prod.fst <;> simp [hmem, this, Ne.symm hk]

theorem addToDict_cons (k : ℚ) (vs : List ℚ) (rest : List (ℚ × List ℚ)) (rt v : ℚ) :
    addToDict ((k, vs) :: rest) rt v =
      if k = rt then (k, vs ++ [v]) :: rest else (k, vs) :: addToDict rest rt v := rfl

theorem addToDict_entries {d : List (ℚ × List ℚ)} {rt v : ℚ} (F : ℚ → List ℚ)
    (hnd : (d.map Prod.fst).Nodup)
    (hd : ∀ e ∈ d, e.2 = F e.1)
    (hfresh : rt ∉ d.map Prod.fst → F rt = []) :
    ∀ e ∈ addToDict d rt v, e.2 = if e.1 = rt then F rt ++ [v] else F e.1 := by
  induction d with
  | nil =>
    intro e he
    rw [show addToDict [] rt v = [(rt, [v])] from rfl] at he
    rcases List.mem_singleton.mp he with rfl
    simp [hfresh (by simp)]
  | cons hd0 rest ih =>
    obtain ⟨k, vs⟩ := hd0
    by_cases hk : k = rt
    · subst hk
      intro e he
      rw [addToDict_cons, if_pos rfl] at he
      rcases List.mem_cons.mp he with he1 | he1
      · subst he1
        have h1 : vs = F k := hd (k, vs) (by simp)
        simp [← h1]
      · have hkne : e.1 ≠ k := by
          simp only [List.map_cons, List.nodup_cons] at hnd
          intro hcontra
          exact hnd.1 (hcontra ▸ (List.mem_map_of_mem Prod.fst he1))
        rw [if_neg hkne]
        exact hd e (by simp [he1])
    · intro e he
      rw [addToDict_cons, if_neg hk] at he
      rcases List.mem_cons.mp he with he1 | he1
      · subst he1
        have h2 : (k, vs).1 ≠ rt := hk
        rw [if_neg h2]
        exact hd (k, vs) (by simp)
      · simp only [List.map_cons, List.nodup_cons] at hnd
        refine ih hnd.2 (fun e' he' => hd e' (by simp [he'])) ?_ e he1
        intro hmem
        apply hfresh
        simp only [List.map_cons, List.mem_cons]
        push_neg
        exact ⟨Ne.symm hk, hmem⟩

theorem bucketVals_singleton (r : Reading) (base k : ℚ) :
    bucketVals [r] base k = if _round r.1 base = k then [r.2] else [] := by
  by_cases h : _round r.1 base = k <;> simp [bucketVals, List.filter, h]

theorem DictInv.step {base : ℚ} {d : List (ℚ × List ℚ)} {l : List Reading}
    (h : DictInv base d l) (r : Reading) :
    DictInv base (addToDict d (_round r.1 base) r.2) (l ++ [r]) := by
  constructor
  · rw [addToDict_keys]
    split_ifs with hmem
    · exact h.nodupKeys
    · refine List.nodup_append.mpr ⟨h.nodupKeys, List.nodup_singleton _, ?_⟩
      intro a ha hb
      rcases List.mem_singleton.mp hb with rfl
      exact hmem ha
  · intro k
    rw [addToDict_keys]
    split_ifs with hmem
    · rw [h.memKeys k]
      constructor
      · rintro ⟨r', hr', hk⟩
        exact ⟨r', by simp [hr'], hk⟩
      · rintro ⟨r', hr', hk⟩
        rcases List.mem_append.mp hr' with h1 | h1
        · exact ⟨r', h1, hk⟩
        · rcases List.mem_singleton.mp h1 with rfl
          subst hk
          exact (h.memKeys _).mp hmem
    · rw [List.mem_append, List.mem_singleton, h.memKeys k]
      constructor
      · rintro (⟨r', hr', hk⟩ | rfl)
        · exact ⟨r', by simp [hr'], hk⟩
        · exact ⟨r, by simp, rfl⟩
      · rintro ⟨r', hr', hk⟩
        rcases List.mem_append.mp hr' with h1 | h1
        · exact Or.inl ⟨r', h1, hk⟩
        · rcases List.mem_singleton.mp h1 with rfl
          exact Or.inr hk.symm
  · intro e he
    have hfresh : _round r.1 base ∉ d.map Prod.fst → bucketVals l base (_round r.1 base) = [] := by
      intro hmem
      apply bucketVals_eq_nil
      intro r' hr' hk
      exact hmem ((h.memKeys _).mpr ⟨r', hr', hk⟩)
    have h2 := addToDict_entries (bucketVals l base) h.nodupKeys h.entries hfresh e he
    rw [h2, bucketVals_append, bucketVals_singleton]
    by_cases hk : e.1 = _round r.1 base
    · rw [if_pos hk, if_pos hk.symm, hk]
    · rw [if_neg hk, if_neg (Ne.symm hk)]
      simp

theorem buildDict_inv (base : ℚ) (l : List Reading) : DictInv base (buildDict l base) l := by
  suffices h : ∀ (rest pre : List Reading) (d : List (ℚ × List ℚ)), DictInv base d pre →
      DictInv base (rest.foldl (fun d r => addToDict d (_round r.1 base) r.2) d) (pre ++ rest) by
    have h2 := h l [] [] ⟨by simp, by simp, by simp⟩
    simpa [buildDict] using h2
  intro rest
  induction rest with
  | nil =>
    intro pre d h
    simpa using h
  | cons r rest ih =>
    intro pre d h
    have h2 := ih (pre ++ [r]) _ (h.step r)
    simpa [List.append_assoc] using h2

/-- The sorted output of `_downSampleReadings` is a permutation of the
per-key averages of the grouping dict. -/
theorem downSample_perm (readings : List Reading) (base : ℚ) :
    List.Perm (_downSampleReadings readings base)
      ((buildDict readings base).map (fun e => (e.1, e.2.sum / (e.2.length : ℚ), e.2.length))) :=
  List.perm_insertionSort keyLe _

theorem downSample_keys_nodup (readings : List Reading) (base : ℚ) :
    ((_downSampleReadings readings base).map Prod.fst).Nodup := by
  have hperm : List.Perm ((_downSampleReadings readings base).map Prod.fst)
      (((buildDict readings base).map
        (fun e => ((e.1 : ℚ), e.2.sum / (e.2.length : ℚ), e.2.length))).map Prod.fst) :=
    (downSample_perm readings base).map Prod.fst
  have hkeys : ((buildDict readings base).map
      (fun e => ((e.1 : ℚ), e.2.sum / (e.2.length : ℚ), e.2.length))).map Prod.fst =
      (buildDict readings base).map Prod.fst := by
    rw [List.map_map]
    rfl
  rw [hkeys] at hperm
  exact hperm.nodup_iff.mpr (buildDict_inv base readings).nodupKeys

theorem downSample_mem_key (readings : List Reading) (base k : ℚ) :
    k ∈ (_downSampleReadings readings base).map Prod.fst ↔
      ∃ r ∈ readings, _round r.1 base = k := by
  have hperm : List.Perm ((_downSampleReadings readings base).map Prod.fst)
      (((buildDict readings base).map
        (fun e => ((e.1 : ℚ), e.2.sum / (e.2.length : ℚ), e.2.length))).map Prod.fst) :=
    (downSample_perm readings base).map Prod.fst
  have hkeys : ((buildDict readings base).map
      (fun e => ((e.1 : ℚ), e.2.sum / (e.2.length : ℚ), e.2.length))).map Prod.fst =
      (buildDict readings base).map Prod.fst := by
    rw [List.map_map]
    rfl
  rw [hperm.mem_iff, hkeys]
  exact (buildDict_inv base readings).memKeys k

theorem downSample_entries (readings : List Reading) (base : ℚ) :
    ∀ e ∈ _downSampleReadings readings base, e = bucket readings base e.1 := by
  intro e he
  have he2 := (downSample_perm readings base).mem_iff.mp he
  rcases List.mem_map.mp he2 with ⟨d, hd, rfl⟩
  have hvals := (buildDict_inv base readings).entries d hd
  simp only [bucket]
  rw [hvals]

theorem downSample_sorted_lt (readings : List Reading) (base : ℚ) :
    (_downSampleReadings readings base).Pairwise (fun a b => a.1 < b.1) := by
  have hle : (_downSampleReadings readings base).Pairwise keyLe :=
    List.sorted_insertionSort keyLe _
  have hne : (_downSampleReadings readings base).Pairwise (fun a b => a.1 ≠ b.1) :=
    List.pairwise_map.mp (downSample_keys_nodup readings base)
  exact (hle.and hne).imp (fun h => lt_of_le_of_ne h.1 h.2)

theorem downSample_ne_nil {readings : List Reading} (h : readings ≠ []) (base : ℚ) :
    _downSampleReadings readings base ≠ [] := by
  intro hnil
  rcases List.exists_mem_of_ne_nil readings h with ⟨r, hr⟩
  have hmem := (downSample_mem_key readings base (_round r.1 base)).mpr ⟨r, hr, rfl⟩
  rw [hnil] at hmem
  simp at hmem

/-- Bucket counts in the downsampled batch are positive. -/
theorem downSample_count_pos (readings : List Reading) (base : ℚ) :
    ∀ e ∈ _downSampleReadings readings base, 0 < e.2.2 := by
  intro e he
  have hkey : e.1 ∈ (_downSampleReadings readings base).map Prod.fst :=
    List.mem_map_of_mem Prod.fst he
  rcases (downSample_mem_key readings base e.1).mp hkey with ⟨r, hr, hk⟩
  have hent := downSample_entries readings base e he
  rw [hent]
  simp only [bucket]
  have : r ∈ readings.filter (fun r' => _round r'.1 base = e.1) :=
    List.mem_filter.mpr ⟨hr, by simp [hk]⟩
  have hne : readings.filter (fun r' => _round r'.1 base = e.1) ≠ [] :=
    List.ne_nil_of_mem this
  simp only [bucketVals]
  rw [List.length_map]
  exact List.length_pos.mpr hne

/-- C2 counterexample: at sample rate 1 the reading at time 1/2 is assigned to
the bucket at rounded time 0 (round-half-to-even), and the distance of the
rounded time from the true time is exactly 1/(2*1), not strictly less. -/
theorem downSample_strict_cex :
    (_downSampleReadings [((1:ℚ)/2, 0)] (1/1)).map Prod.fst = [0] ∧
    ¬ |(0:ℚ) - 1/2| < 1 / (2 * 1) := by
  constructor
  · norm_num [_downSampleReadings, buildDict, addToDict, _round, pyRound,
      List.insertionSort, List.orderedInsert]
  · rw [abs_sub_comm, abs_of_nonneg (by norm_num : (0:ℚ) ≤ 1/2 - 0)]
    norm_num

/-- C2 (amended): for sample rate r > 0, `_downSampleReadings(readings, 1/r)`
assigns every reading to the bucket at its rounded time, which differs from the
true time by at most 1/(2r) (the bound is attained at ties, so it is not
strict); every output bucket carries the arithmetic mean and the exact count of
the readings assigned to it; and the buckets are strictly ascending in time. -/
theorem downSample_correct (r : ℚ) (hr : 0 < r) (readings : List Reading) :
    (∀ p ∈ readings, |_round p.1 (1/r) - p.1| ≤ 1 / (2*r)) ∧
    (∀ p ∈ readings, _round p.1 (1/r) ∈ (_downSampleReadings readings (1/r)).map Prod.fst) ∧
    (∀ e ∈ _downSampleReadings readings (1/r),
      e.2.1 = (bucketVals readings (1/r) e.1).sum / ((bucketVals readings (1/r) e.1).length : ℚ) ∧
      e.2.2 = (bucketVals readings (1/r) e.1).length) ∧
    (_downSampleReadings readings (1/r)).Pairwise (fun a b => a.1 < b.1) := by
  have hbase : (0:ℚ) < 1/r := by positivity
  refine ⟨?_, ?_, ?_, downSample_sorted_lt readings (1/r)⟩
  · intro p _
    have h := abs_round_sub_le hbase p.1
    calc |_round p.1 (1/r) - p.1| ≤ (1/r) / 2 := h
      _ = 1 / (2*r) := by ring
  · intro p hp
    exact (downSample_mem_key readings (1/r) (_round p.1 (1/r))).mpr ⟨p, hp, rfl⟩
  · intro e he
    have h := downSample_entries readings (1/r) e he
    rw [h]
    exact ⟨rfl, rfl⟩

theorem downSample_correct_witness :
    (_downSampleReadings [((1:ℚ)/100, 4), (3/100, 6), (1/25, 8)] (1/5)).Pairwise
      (fun a b => a.1 < b.1) :=
  (downSample_correct 5 (by norm_num) [((1:ℚ)/100, 4), (3/100, 6), (1/25, 8)]).2.2.2

theorem getLast?_cons_of_ne_nil {α : Type _} (a : α) {tl : List α} (h : tl ≠ []) :
    (a :: tl).getLast? = tl.getLast? := by
  match tl, h with
  | _ :: _, _ => exact List.getLast?_cons_cons

theorem getLast?_drop {α : Type _} :
    ∀ (l : List α) (k : ℕ), k < l.length → (l.drop k).getLast? = l.getLast?
  | _, 0, _ => rfl
  | a :: tl, k + 1, h => by
    have htl : tl ≠ [] := by
      intro hnil
      subst hnil
      simp at h
    rw [List.drop_succ_cons, getLast?_drop tl k (by simpa using h),
      getLast?_cons_of_ne_nil a htl]

theorem addReadings_nil (cap : ℕ) (r : ℚ) (st : LCState) :
    addReadings cap r st [] = st := rfl

/-- Unfolding of the overlap-merge branch of `addReadings`. -/
theorem addReadings_merge_eq {cap : ℕ} {r : ℚ} {st : LCState} {readings : List Reading}
    {t v : ℚ} {n : ℕ} {rest : List (ℚ × ℚ × ℕ)} {lastTime lastVal : ℚ}
    (hne : readings ≠ [])
    (hds : _downSampleReadings readings (1/r) = (t, v, n) :: rest)
    (hlast : st.data.getLast? = some (lastTime, lastVal))
    (hmerge : |t - lastTime| < 1/r) :
    addReadings cap r st readings =
      ⟨dequeExtend cap (st.data.dropLast ++
          [(max t lastTime,
            (lastVal * (st.numSamplesLastReading : ℚ) + v * (n : ℚ)) /
              ((st.numSamplesLastReading : ℚ) + (n : ℚ)))])
          (rest.map fun e => (e.1, e.2.1)),
        st.numSamplesLastReading + n⟩ := by
  have hlen : ¬ readings.length < 1 := by
    have := List.length_pos.mpr hne
    omega
  unfold addReadings
  rw [if_neg hlen]
  simp only [one_div] at hds ⊢
  rw [hds, hlast]
  have hm2 : |t - lastTime| < r⁻¹ := by
    rw [← one_div]
    exact hmerge
  dsimp only
  rw [if_pos hm2]

/-- Unfolding of the append branch of `addReadings` when the buffer is
non-empty and the first bucket does not overlap its last entry. -/
theorem addReadings_nomerge_eq {cap : ℕ} {r : ℚ} {st : LCState} {readings : List Reading}
    {t v : ℚ} {n : ℕ} {rest : List (ℚ × ℚ × ℕ)} {lastTime lastVal : ℚ}
    (hne : readings ≠ [])
    (hds : _downSampleReadings readings (1/r) = (t, v, n) :: rest)
    (hlast : st.data.getLast? = some (lastTime, lastVal))
    (hmerge : ¬ |t - lastTime| < 1/r) :
    addReadings cap r st readings =
      ⟨dequeExtend cap st.data (((t, v, n) :: rest).map fun e => (e.1, e.2.1)),
        (((t, v, n) :: rest).getLast (List.cons_ne_nil _ _)).2.2⟩ := by
  have hlen : ¬ readings.length < 1 := by
    have := List.length_pos.mpr hne
    omega
  unfold addReadings
  rw [if_neg hlen]
  simp only [one_div] at hds ⊢
  rw [hds, hlast]
  have hm2 : ¬ |t - lastTime| < r⁻¹ := by
    rw [← one_div]
    exact hmerge
  dsimp only
  rw [if_neg hm2]

/-- Unfolding of the append branch of `addReadings` when the buffer is empty. -/
theorem addReadings_empty_eq {cap : ℕ} {r : ℚ} {st : LCState} {readings : List Reading}
    {t v : ℚ} {n : ℕ} {rest : List (ℚ × ℚ × ℕ)}
    (hne : readings ≠ [])
    (hds : _downSampleReadings readings (1/r) = (t, v, n) :: rest)
    (hlast : st.data.getLast? = none) :
    addReadings cap r st readings =
      ⟨dequeExtend cap st.data (((t, v, n) :: rest).map fun e => (e.1, e.2.1)),
        (((t, v, n) :: rest).getLast (List.cons_ne_nil _ _)).2.2⟩ := by
  have hlen : ¬ readings.length < 1 := by
    have := List.length_pos.mpr hne
    omega
  unfold addReadings
  rw [if_neg hlen]
  simp only [one_div] at hds ⊢
  rw [hds, hlast]

/-- C3 counterexample: starting from buffer [(0, 10)] with
`numSamplesLastReading = 1` at sample rate 1, ingesting [(1/5, 20), (1, 30)]
takes the overlap-merge branch and sets `numSamplesLastReading` to 2, yet the
most recent buffer entry (1, 30) is the average of exactly one raw reading (the
bucket at rounded time 1 has count 1). -/
theorem lastSampleCount_cex :
    addReadings 100000 1 ⟨[(0, 10)], 1⟩ [((1:ℚ)/5, 20), (1, 30)] =
      ⟨[(0, 15), (1, 30)], 2⟩ ∧
    (bucketVals [((1:ℚ)/5, 20), (1, 30)] (1/1) 1).length = 1 := by
  have h1 : _round ((1:ℚ)/5) 1 = 0 := by norm_num [_round, pyRound]
  have h2 : _round ((1:ℚ)) 1 = 1 := by norm_num [_round, pyRound]
  have hds : _downSampleReadings [((1:ℚ)/5, 20), (1, 30)] (1/1) =
      [(0, 20, 1), (1, 30, 1)] := by
    norm_num [_downSampleReadings, buildDict, addToDict, h1, h2,
      List.insertionSort, List.orderedInsert, keyLe]
  constructor
  · have hm := @addReadings_merge_eq 100000 1 ⟨[(0, 10)], 1⟩ _ 0 20 1 _ 0 10
      (by simp) hds rfl (by norm_num)
    rw [hm]
    norm_num [dequeExtend]
  · norm_num [bucketVals, List.filter, h1, h2]

theorem dequeExtend_getLast? {cap : ℕ} (hcap : 0 < cap) (l : List (ℚ × ℚ))
    {new : List (ℚ × ℚ)} (hne : new ≠ []) :
    (dequeExtend cap l new).getLast? = new.getLast? := by
  have h1 : 0 < new.length := List.length_pos.mpr hne
  have h2 : l.length + new.length - cap < (l ++ new).length := by
    rw [List.length_append]
    omega
  unfold dequeExtend
  rw [getLast?_drop _ _ h2, List.getLast?_append_of_ne_nil _ hne]

/-- C3 (amended): `numSamplesLastReading` is reset to 0 by `clear`.  After an
ingest into an empty buffer, or one whose first bucket does not overlap the
last buffer entry, it equals the raw-reading count of the last downsampled
bucket, which is exactly the bucket averaged into the new most recent buffer
entry.  After an overlap-merge ingest it equals the previous value plus the
raw-reading count of the FIRST bucket of the batch, so when the batch holds
further buckets (the most recent entry then being the last bucket) the claimed
invariant does not relate it to the most recent entry. -/
theorem lastSampleCount_spec (cap : ℕ) (r : ℚ) (st : LCState) (readings : List Reading)
    (t v : ℚ) (n : ℕ) (rest : List (ℚ × ℚ × ℕ)) (lastKey : ℚ) (hcap : 0 < cap)
    (hne : readings ≠ [])
    (hds : _downSampleReadings readings (1/r) = (t, v, n) :: rest)
    (hlk : (((t, v, n) :: rest).getLast (List.cons_ne_nil _ _)).1 = lastKey) :
    ((st.clear).numSamplesLastReading = 0) ∧
    (∀ lastTime lastVal, st.data.getLast? = some (lastTime, lastVal) →
      |t - lastTime| < 1/r →
      (addReadings cap r st readings).numSamplesLastReading =
        st.numSamplesLastReading + (bucketVals readings (1/r) t).length) ∧
    (st.data.getLast? = none →
      (addReadings cap r st readings).numSamplesLastReading =
          (bucketVals readings (1/r) lastKey).length ∧
        (addReadings cap r st readings).data.getLast? =
          some (lastKey, (bucketVals readings (1/r) lastKey).sum /
            ((bucketVals readings (1/r) lastKey).length : ℚ))) ∧
    (∀ lastTime lastVal, st.data.getLast? = some (lastTime, lastVal) →
      ¬ |t - lastTime| < 1/r →
      (addReadings cap r st readings).numSamplesLastReading =
          (bucketVals readings (1/r) lastKey).length ∧
        (addReadings cap r st readings).data.getLast? =
          some (lastKey, (bucketVals readings (1/r) lastKey).sum /
            ((bucketVals readings (1/r) lastKey).length : ℚ))) := by
  have hhead_mem : ((t, v, n) : ℚ × ℚ × ℕ) ∈ _downSampleReadings readings (1/r) := by
    rw [hds]
    exact List.mem_cons_self _ _
  have hhead_eq := downSample_entries readings (1/r) _ hhead_mem
  have hn : n = (bucketVals readings (1/r) t).length := congrArg (fun e => e.2.2) hhead_eq
  have hlast_mem : ((t, v, n) :: rest).getLast (List.cons_ne_nil _ _) ∈
      _downSampleReadings readings (1/r) := by
    rw [hds]
    exact List.getLast_mem _
  have hlast_eq := downSample_entries readings (1/r) _ hlast_mem
  rw [hlk] at hlast_eq
  have hmapne : (((t, v, n) :: rest).map fun e => (e.1, e.2.1)) ≠ [] := by simp
  have hlastpair : ((((t, v, n) :: rest).map fun e => (e.1, e.2.1)).getLast?) =
      some (lastKey, (bucketVals readings (1/r) lastKey).sum /
        ((bucketVals readings (1/r) lastKey).length : ℚ)) := by
    rw [List.getLast?_map, List.getLast?_eq_getLast_of_ne_nil (List.cons_ne_nil _ _), hlast_eq]
    rfl
  refine ⟨rfl, ?_, ?_, ?_⟩
  · intro lastTime lastVal hl hm
    rw [addReadings_merge_eq hne hds hl hm]
    rw [hn]
  · intro hl
    rw [addReadings_empty_eq hne hds hl]
    constructor
    · show (((t, v, n) :: rest).getLast (List.cons_ne_nil _ _)).2.2 = _
      rw [hlast_eq]
      rfl
    · show (dequeExtend cap st.data _).getLast? = _
      rw [dequeExtend_getLast? hcap st.data hmapne, hlastpair]
  · intro lastTime lastVal hl hm
    rw [addReadings_nomerge_eq hne hds hl hm]
    constructor
    · show (((t, v, n) :: rest).getLast (List.cons_ne_nil _ _)).2.2 = _
      rw [hlast_eq]
      rfl
    · show (dequeExtend cap st.data _).getLast? = _
      rw [dequeExtend_getLast? hcap st.data hmapne, hlastpair]

theorem lastSampleCount_spec_witness :
    (addReadings 100000 1 ⟨[(0, 10)], 1⟩ [((1:ℚ)/5, 20), (1, 30)]).numSamplesLastReading =
      1 + (bucketVals [((1:ℚ)/5, 20), (1, 30)] (1/1) 0).length := by
  have h1 : _round ((1:ℚ)/5) 1 = 0 := by norm_num [_round, pyRound]
  have h2 : _round ((1:ℚ)) 1 = 1 := by norm_num [_round, pyRound]
  have hds : _downSampleReadings [((1:ℚ)/5, 20), (1, 30)] (1/1) =
      [(0, 20, 1), (1, 30, 1)] := by
    norm_num [_downSampleReadings, buildDict, addToDict, h1, h2,
      List.insertionSort, List.orderedInsert, keyLe]
  exact (lastSampleCount_spec 100000 1 ⟨[(0, 10)], 1⟩ _ 0 20 1 [(1, 30, 1)] 1
    (by norm_num) (by simp) hds rfl).2.1 0 10 rfl (by norm_num)

theorem pushAll_drop {α : Type _} (cap : ℕ) (hcap : 0 < cap) :
    ∀ (l : List α) (q : List α), q.length ≤ cap →
      l.foldl (pushReading cap) q = (q ++ l).drop (q.length + l.length - cap) := by
  intro l
  induction l with
  | nil =>
    intro q hq
    simp only [List.foldl_nil, List.append_nil, List.length_nil]
    rw [show q.length + 0 - cap = 0 from by omega]
    simp
  | cons x xs ih =>
    intro q hq
    have hk : q.length + 1 - cap ≤ q.length := by omega
    have hq' : (pushReading cap q x).length ≤ cap := by
      simp only [pushReading, List.length_append, List.length_drop, List.length_singleton]
      omega
    rw [List.foldl_cons, ih (pushReading cap q x) hq']
    have hsplit : pushReading cap q x ++ xs = (q ++ x :: xs).drop (q.length + 1 - cap) := by
      rw [List.drop_append_of_le_length hk]
      simp [pushReading]
    rw [hsplit, List.drop_drop]
    have hlen2 : (pushReading cap q x).length = q.length - (q.length + 1 - cap) + 1 := by
      simp [pushReading]
    congr 1
    rw [hlen2, List.length_cons]
    omega

/-- C4: pushing `cap + k` items (k > 0) through the overflow-handling push
loop of `SerialReader.run`, starting from an empty bounded queue, and then
draining via `SerialScale.read()` yields exactly the last `cap` items pushed,
in their original FIFO order, and leaves the queue empty. -/
theorem queue_overflow (cap k : ℕ) (hcap : 0 < cap) (_hk : 0 < k)
    (items : List (ℚ × ℚ)) (hlen : items.length = cap + k) :
    readAll (items.foldl (pushReading cap) []) = (items.drop k, []) ∧
    (items.drop k).length = cap := by
  have h := pushAll_drop cap hcap items [] (by simp)
  simp only [List.nil_append, List.length_nil, Nat.zero_add] at h
  rw [hlen] at h
  have hk2 : cap + k - cap = k := by omega
  rw [hk2] at h
  constructor
  · rw [readAll, h]
  · rw [List.length_drop, hlen]
    omega

theorem queue_overflow_witness :
    readAll (([((0:ℚ), 1), (1, 2), (2, 3)] : List (ℚ × ℚ)).foldl (pushReading 2) []) =
      ([(1, 2), (2, 3)], []) ∧
    (([((0:ℚ), 1), (1, 2), (2, 3)] : List (ℚ × ℚ)).drop 1).length = 2 := by
  have h := queue_overflow 2 1 (by norm_num) (by norm_num)
    [((0:ℚ), 1), (1, 2), (2, 3)] (by norm_num)
  simpa using h

/-- C5 counterexample: two calibration points sharing the measured value 1
(with distinct real values) produce a degenerate fit rather than no fit:
`hasFit()` is true and the conversions do not report "uncalibrated". -/
theorem degenerate_fit_cex :
    calibrationOfPts [(1, 2), (1, 3)] =
      .ok ⟨[(1, 2), (1, 3)], some ⟨5/4, 5/4⟩⟩ ∧
    (Calibration.mk [(1, 2), (1, 3)] (some ⟨5/4, 5/4⟩)).hasFit = true ∧
    (Calibration.mk [(1, 2), (1, 3)] (some ⟨5/4, 5/4⟩)).forward 10 .N ≠
      .error "uncalibrated" := by
  refine ⟨?_, rfl, by simp [Calibration.forward]⟩
  have hfit2 : fitLine [((1:ℚ), 2), (1, 3)] = .ok (some ⟨5/4, 5/4⟩) := by
    norm_num [fitLine, np_polyfit1]
  norm_num [calibrationOfPts, Calibration.addPoint, fitLine, np_polyfit1,
    convertBetween, CONVERSIONS, List.foldlM, Except.bind, bind, Except.instMonad,
    Except.pure]

/-- C5 (amended): with fewer than 2 points `fitLine` yields no fit without
raising, and a `Calibration` without a fit reports "uncalibrated" from both
conversions.  But for 2 or more points that all share one nonzero measured
value, the suppressed-warning least-squares call returns a degenerate fit, so
`fitLine` yields a fit (`hasFit()` would be true) instead of no fit. -/
theorem degenerate_fit_spec :
    (∀ pts : List (ℚ × ℚ), pts.length < 2 → fitLine pts = .ok none) ∧
    (∀ c : Calibration, c.fit = none → ∀ v u,
      c.forward v u = .error "uncalibrated" ∧ c.inverse v u = .error "uncalibrated") ∧
    (∀ (pts : List (ℚ × ℚ)) (a : ℚ), 2 ≤ pts.length → a ≠ 0 →
      (∀ p ∈ pts, p.1 = a) → ∃ f : Fit, fitLine pts = .ok (some f)) := by
  refine ⟨?_, ?_, ?_⟩
  · intro pts h
    unfold fitLine
    rw [if_pos h]
  · intro c hc v u
    constructor
    · unfold Calibration.forward
      rw [hc]
    · unfold Calibration.inverse
      rw [hc]
  · intro pts a hlen ha hall
    have hn : (0:ℚ) < (pts.length : ℚ) := by
      have : 0 < pts.length := by omega
      exact_mod_cast this
    have hxsum : (pts.map Prod.fst).sum = (pts.length : ℚ) * a := by
      have h1 : ∀ x ∈ pts.map Prod.fst, x = a := by
        intro x hx
        rcases List.mem_map.mp hx with ⟨p, hp, rfl⟩
        exact hall p hp
      rw [List.sum_eq_card_nsmul _ a h1]
      simp [nsmul_eq_mul]
    have hxbar : (pts.map Prod.fst).sum / (pts.length : ℚ) = a := by
      rw [hxsum]
      field_simp
    have hsxx : (pts.map fun p =>
        (p.1 - (pts.map Prod.fst).sum / (pts.length : ℚ))^2).sum = 0 := by
      apply List.sum_eq_zero
      intro x hx
      rcases List.mem_map.mp hx with ⟨p, hp, rfl⟩
      rw [hxbar, hall p hp]
      ring
    have hlen2 : ¬ pts.length < 2 := by omega
    have hpoly : np_polyfit1 pts =
        some (((pts.map Prod.snd).sum / (pts.length : ℚ)) / (2 * a),
          ((pts.map Prod.snd).sum / (pts.length : ℚ)) / 2) := by
      simp only [np_polyfit1]
      rw [if_neg (by rw [hsxx]; simp), if_pos (by rw [hxbar]; exact ha), hxbar]
    refine ⟨⟨((pts.map Prod.snd).sum / (pts.length : ℚ)) / (2 * a),
      ((pts.map Prod.snd).sum / (pts.length : ℚ)) / 2⟩, ?_⟩
    unfold fitLine
    rw [if_neg hlen2, hpoly]

theorem degenerate_fit_spec_witness :
    fitLine [((1:ℚ), 2)] = .ok none ∧
    (∃ f : Fit, fitLine [((2:ℚ), 5), (2, 9)] = .ok (some f)) :=
  ⟨degenerate_fit_spec.1 [((1:ℚ), 2)] (by norm_num),
    degenerate_fit_spec.2.2 [((2:ℚ), 5), (2, 9)] 2 (by norm_num) (by norm_num)
      (by norm_num)⟩

theorem sum_map_affine (a b : ℚ) :
    ∀ (l : List (ℚ × ℚ)), (∀ p ∈ l, p.2 = a * p.1 + b) →
      (l.map Prod.snd).sum = a * (l.map Prod.fst).sum + b * l.length
  | [], _ => by simp
  | p :: tl, h => by
    have h1 := h p (List.mem_cons_self _ _)
    have h2 := sum_map_affine a b tl (fun q hq => h q (List.mem_cons_of_mem _ hq))
    simp only [List.map_cons, List.sum_cons, List.length_cons]
    rw [h1, h2]
    push_cast
    ring

theorem sum_sq_eq_zero {f : ℚ × ℚ → ℚ} :
    ∀ {l : List (ℚ × ℚ)}, (l.map fun p => (f p)^2).sum = 0 → ∀ p ∈ l, f p = 0 := by
  intro l
  induction l with
  | nil =>
    intro _ p hp
    simp at hp
  | cons q tl ih =>
    intro hsum p hp
    simp only [List.map_cons, List.sum_cons] at hsum
    have h1 : 0 ≤ (f q)^2 := sq_nonneg _
    have h2 : 0 ≤ (tl.map fun p => (f p)^2).sum := by
      apply List.sum_nonneg
      intro x hx
      rcases List.mem_map.mp hx with ⟨s, _, rfl⟩
      exact sq_nonneg _
    have hq : (f q)^2 = 0 := by linarith
    have htl : (tl.map fun p => (f p)^2).sum = 0 := by linarith
    rcases List.mem_cons.mp hp with rfl | hp2
    · exact sq_eq_zero_iff.mp hq
    · exact ih htl p hp2

/-- C8: for 2 or more calibration points lying exactly on the line
y = 2 x + 3 with at least two distinct measured values, `fitLine` recovers
slope 2 and intercept 3 exactly; and whenever a fit with nonzero slope exists,
`inverse(forward(x))` returns x for every input and every unit of the fixed
conversion table. -/
theorem calibration_roundtrip (pts : List (ℚ × ℚ))
    (hlen : 2 ≤ pts.length)
    (hline : ∀ p ∈ pts, p.2 = 2 * p.1 + 3)
    (hdist : ∃ p ∈ pts, ∃ q ∈ pts, p.1 ≠ q.1) :
    fitLine pts = .ok (some ⟨2, 3⟩) ∧
    (∀ (f : Fit), f.m ≠ 0 → ∀ (x : ℚ) (u : ForceUnit) (c : Calibration),
      c.fit = some f → ∃ y, c.forward x u = .ok y ∧ c.inverse y u = .ok x) := by
  constructor
  · have hn : (0:ℚ) < (pts.length : ℚ) := by
      have h0 : 0 < pts.length := by omega
      exact_mod_cast h0
    have hysum : (pts.map Prod.snd).sum =
        2 * (pts.map Prod.fst).sum + 3 * pts.length :=
      sum_map_affine 2 3 pts hline
    have hybar : (pts.map Prod.snd).sum / (pts.length : ℚ) =
        2 * ((pts.map Prod.fst).sum / (pts.length : ℚ)) + 3 := by
      rw [hysum]
      field_simp
    have hsxy : (pts.map fun p =>
          (p.1 - (pts.map Prod.fst).sum / (pts.length : ℚ)) *
            (p.2 - (pts.map Prod.snd).sum / (pts.length : ℚ))).sum =
        2 * (pts.map fun p =>
          (p.1 - (pts.map Prod.fst).sum / (pts.length : ℚ))^2).sum := by
      rw [← List.sum_map_mul_left]
      congr 1
      apply List.map_congr_left
      intro p hp
      rw [hline p hp, hybar]
      ring
    have hsxx_ne : (pts.map fun p =>
        (p.1 - (pts.map Prod.fst).sum / (pts.length : ℚ))^2).sum ≠ 0 := by
      intro h0
      rcases hdist with ⟨p, hp, q, hq, hne⟩
      have hzp := sum_sq_eq_zero
        (f := fun s => s.1 - (pts.map Prod.fst).sum / (pts.length : ℚ)) h0 p hp
      have hzq := sum_sq_eq_zero
        (f := fun s => s.1 - (pts.map Prod.fst).sum / (pts.length : ℚ)) h0 q hq
      simp only at hzp hzq
      apply hne
      linarith
    have hpoly : np_polyfit1 pts = some (2, 3) := by
      simp only [np_polyfit1]
      rw [if_pos hsxx_ne, hsxy, mul_div_assoc, div_self hsxx_ne, mul_one, hybar]
      congr 2
      ring
    unfold fitLine
    rw [if_neg (by omega), hpoly]
  · intro f hm x u c hc
    refine ⟨f.measured2real x u, ?_, ?_⟩
    · unfold Calibration.forward
      rw [hc]
    · unfold Calibration.inverse
      rw [hc]
      cases u <;>
        simp only [Fit.real2measured, Fit.measured2real, convertBetween, CONVERSIONS] <;>
        field_simp

theorem calibration_roundtrip_witness :
    fitLine [((0:ℚ), 3), (1, 5)] = .ok (some ⟨2, 3⟩) ∧
    (∃ y, (Calibration.mk [((0:ℚ), 3), (1, 5)] (some ⟨2, 3⟩)).forward 7 .kg = .ok y ∧
      (Calibration.mk [((0:ℚ), 3), (1, 5)] (some ⟨2, 3⟩)).inverse y .kg = .ok 7) := by
  have h := calibration_roundtrip [((0:ℚ), 3), (1, 5)] (by norm_num) (by norm_num)
    ⟨(0, 3), by norm_num, (1, 5), by norm_num, by norm_num⟩
  exact ⟨h.1, h.2 ⟨2, 3⟩ (by norm_num) 7 .kg _ rfl⟩

theorem countP_lt_cons_pos {a : ℚ} {p : ℚ × ℚ} (tl : List (ℚ × ℚ)) (h : p.1 < a) :
    (p :: tl).countP (fun q => q.1 < a) = tl.countP (fun q => q.1 < a) + 1 := by
  rw [List.countP_cons_of_pos]
  simp [h]

theorem countP_lt_cons_neg {a : ℚ} {p : ℚ × ℚ} (tl : List (ℚ × ℚ)) (h : ¬ p.1 < a) :
    (p :: tl).countP (fun q => q.1 < a) = tl.countP (fun q => q.1 < a) := by
  rw [List.countP_cons_of_neg]
  simp [h]

theorem countP_lt_eq_zero {a : ℚ} {l : List (ℚ × ℚ)} (h : ∀ q ∈ l, ¬ q.1 < a) :
    l.countP (fun q => q.1 < a) = 0 := by
  rw [List.countP_eq_zero]
  simpa using h

theorem slice_eq_filter (a b : ℚ) :
    ∀ (l : List (ℚ × ℚ)), l.Pairwise (fun p q => p.1 ≤ q.1) →
      (l.drop (l.countP (fun p => p.1 < a))).take
          (l.countP (fun p => p.1 < b) - l.countP (fun p => p.1 < a)) =
        l.filter (fun p => a ≤ p.1 ∧ p.1 < b) := by
  intro l
  induction l with
  | nil =>
    intro _
    simp
  | cons p tl ih =>
    intro hpair
    have hhead : ∀ q ∈ tl, p.1 ≤ q.1 := fun q hq => (List.pairwise_cons.mp hpair).1 q hq
    have htl : tl.Pairwise (fun s q => s.1 ≤ q.1) := (List.pairwise_cons.mp hpair).2
    have ihtl := ih htl
    by_cases hpa : p.1 < a
    · rw [countP_lt_cons_pos tl hpa]
      by_cases hpb : p.1 < b
      · rw [countP_lt_cons_pos tl hpb,
          List.filter_cons_of_neg (by simp only [decide_eq_true_eq, not_and]; intro h; linarith),
          show (p :: tl).drop (tl.countP (fun q => q.1 < a) + 1) =
            tl.drop (tl.countP (fun q => q.1 < a)) from rfl,
          show tl.countP (fun q => q.1 < b) + 1 - (tl.countP (fun q => q.1 < a) + 1) =
            tl.countP (fun q => q.1 < b) - tl.countP (fun q => q.1 < a) from by omega]
        exact ihtl
      · -- b <= p.1 < a, so no element at all lies below b
        have hble : b ≤ p.1 := le_of_not_lt hpb
        have hcb : (p :: tl).countP (fun q => q.1 < b) = 0 := by
          apply countP_lt_eq_zero
          intro q hq
          rcases List.mem_cons.mp hq with rfl | hq2
          · exact hpb
          · have := hhead q hq2
            intro hcon
            linarith
        rw [hcb]
        simp only [Nat.zero_sub, List.take_zero]
        symm
        rw [List.filter_eq_nil_iff]
        intro q hq
        rcases List.mem_cons.mp hq with rfl | hq2
        · simp only [decide_eq_true_eq, not_and]
          intro _
          exact hpb
        · have := hhead q hq2
          simp only [decide_eq_true_eq, not_and]
          intro _ hcon
          linarith
    · -- a <= p.1, so no element lies below a
      have hale : a ≤ p.1 := le_of_not_lt hpa
      have hca : (p :: tl).countP (fun q => q.1 < a) = 0 := by
        apply countP_lt_eq_zero
        intro q hq
        rcases List.mem_cons.mp hq with rfl | hq2
        · exact hpa
        · have := hhead q hq2
          intro hcon
          linarith
      have hca' : tl.countP (fun q => q.1 < a) = 0 := by
        apply countP_lt_eq_zero
        intro q hq
        have := hhead q hq
        intro hcon
        linarith
      rw [hca]
      simp only [List.drop_zero, Nat.sub_zero]
      by_cases hpb : p.1 < b
      · rw [countP_lt_cons_pos tl hpb, List.take_succ_cons,
          List.filter_cons_of_pos (by simp only [decide_eq_true_eq]; exact ⟨hale, hpb⟩)]
        have h2 := ihtl
        rw [hca', List.drop_zero, Nat.sub_zero] at h2
        rw [h2]
      · have hcb : tl.countP (fun q => q.1 < b) = 0 := by
          apply countP_lt_eq_zero
          intro q hq
          have h1 := hhead q hq
          have h2 := le_of_not_lt hpb
          intro hcon
          linarith
        rw [countP_lt_cons_neg tl hpb, hcb]
        simp only [List.take_zero]
        symm
        rw [List.filter_eq_nil_iff]
        intro q hq
        rcases List.mem_cons.mp hq with rfl | hq2
        · simp only [decide_eq_true_eq, not_and]
          intro _
          exact hpb
        · have h1 := hhead q hq2
          have h2 := le_of_not_lt hpb
          simp only [decide_eq_true_eq, not_and]
          intro _ hcon
          linarith

/-- C6 counterexample: the buffer holds a single sample at time 1 and the
requested range is [0, 1], so the claim requires a header row plus one data
row; but searchsorted with side left excludes the sample at exactly
`stopTime`, `ilo == ihi`, and the method writes nothing at all. -/
theorem saveRecording_cex :
    saveRecording [((1:ℚ), 5)] 0 1 = none ∧
    ((0:ℚ) ≤ 1 ∧ (1:ℚ) ≤ 1) := by
  constructor
  · norm_num [saveRecording, searchsortedLeft]
  · norm_num

/-- C6 (amended): for every non-empty Series Buffer whose times are ascending
and every startTime <= stopTime, `saveRecording` writes a header row followed
by one row per sample whose time lies in the HALF-OPEN range
[startTime, stopTime) — the stop endpoint is excluded — in buffer order; and
when no sample lies in that half-open range nothing is written at all, not
even the header. -/
theorem saveRecording_spec (data : List (ℚ × ℚ)) (startTime stopTime : ℚ)
    (hne : data ≠ [])
    (hst : startTime ≤ stopTime)
    (hsorted : data.Pairwise (fun p q => p.1 ≤ q.1)) :
    saveRecording data startTime stopTime =
      (if data.filter (fun p => startTime ≤ p.1 ∧ p.1 < stopTime) = []
       then none
       else some (data.filter (fun p => startTime ≤ p.1 ∧ p.1 < stopTime))) := by
  have hlen : ¬ data.length < 1 := by
    have := List.length_pos.mpr hne
    omega
  have hmap : ∀ v : ℚ, searchsortedLeft (data.map Prod.fst) v =
      data.countP (fun p => p.1 < v) := by
    intro v
    simp only [searchsortedLeft, List.countP_map]
    rfl
  have hslice := slice_eq_filter startTime stopTime data hsorted
  unfold saveRecording
  rw [if_neg hlen]
  simp only [hmap]
  by_cases heq : data.countP (fun p => p.1 < startTime) =
      data.countP (fun p => p.1 < stopTime)
  · rw [if_pos heq]
    have hfil : data.filter (fun p => startTime ≤ p.1 ∧ p.1 < stopTime) = [] := by
      rw [← hslice, heq]
      simp
    rw [if_pos hfil]
  · rw [if_neg heq]
    have hmono : data.countP (fun p => p.1 < startTime) ≤
        data.countP (fun p => p.1 < stopTime) := by
      apply List.countP_mono_left
      intro p _ h
      simp only [decide_eq_true_eq] at h ⊢
      linarith
    have hihi_le : data.countP (fun p => p.1 < stopTime) ≤ data.length :=
      List.countP_le_length _
    have hfil_ne : data.filter (fun p => startTime ≤ p.1 ∧ p.1 < stopTime) ≠ [] := by
      rw [← hslice]
      intro hnil
      have hlt : data.countP (fun p => p.1 < startTime) <
          data.countP (fun p => p.1 < stopTime) := by omega
      have htk := congrArg List.length hnil
      rw [List.length_take, List.length_drop] at htk
      simp only [List.length_nil] at htk
      omega
    rw [if_neg hfil_ne, ← hslice]

theorem saveRecording_spec_witness :
    saveRecording [((0:ℚ), 1), (1, 2), (2, 3)] 0 2 = some [((0:ℚ), 1), (1, 2)] := by
  rw [saveRecording_spec [((0:ℚ), 1), (1, 2), (2, 3)] 0 2 (by simp) (by norm_num)
    (by norm_num)]
  norm_num [List.filter]
  intro h
  simp at h

theorem drainAt_getElem_self :
    ∀ (l : List ScaleHandle) (i : ℕ),
      (drainAt l i)[i]? = l[i]?.map (fun s => { s with queue := [] })
  | [], i => by simp [drainAt]
  | s :: rest, 0 => by simp [drainAt]
  | s :: rest, i + 1 => by
    simp only [drainAt, List.getElem?_cons_succ]
    exact drainAt_getElem_self rest i

theorem drainAt_getElem_other :
    ∀ (l : List ScaleHandle) (i j : ℕ), j ≠ i → (drainAt l i)[j]? = l[j]?
  | [], _, _, _ => by simp [drainAt]
  | s :: rest, 0, 0, h => absurd rfl h
  | s :: rest, 0, j + 1, _ => by simp [drainAt]
  | s :: rest, i + 1, 0, _ => by simp [drainAt]
  | s :: rest, i + 1, j + 1, h => by
    simp only [drainAt, List.getElem?_cons_succ]
    exact drainAt_getElem_other rest i j (by omega)

theorem findScale_eq_none_of_no_match {name : String} {l : List ScaleHandle}
    (h : ∀ s ∈ l, s.name ≠ name) :
    findScale l name = Option.none := by
  induction l with
  | nil => rfl
  | cons s rest ih =>
    unfold findScale
    rw [if_neg (h s (List.mem_cons_self _ _))]
    rw [ih (fun q hq => h q (List.mem_cons_of_mem _ hq))]
    rfl

/-- C10: `useScale` with a name that is neither reserved name nor the display
name of any known scale leaves the whole state unchanged; "Select..." only
clears the selection; a name matching a known scale selects the first match
and drains exactly that queue, leaving the Series Buffer,
`numSamplesLastReading`, the calibration, and all other scale queues
untouched. -/
theorem useScale_spec (st : AppState) (name : String) :
    (name ≠ "Select..." → name ≠ "Random Generator" →
      (∀ s ∈ st.scales, s.name ≠ name) → useScale st name = st) ∧
    (useScale st "Select..." = { st with scale := Selection.none }) ∧
    (useScale st "Random Generator" = { st with scale := Selection.randomGenerator }) ∧
    (∀ i, name ≠ "Select..." → name ≠ "Random Generator" →
      findScale st.scales name = some i →
      (useScale st name).data = st.data ∧
      (useScale st name).numSamplesLastReading = st.numSamplesLastReading ∧
      (useScale st name).calibration = st.calibration ∧
      (useScale st name).scale = Selection.scaleIdx i ∧
      (useScale st name).scales[i]? = st.scales[i]?.map (fun s => { s with queue := [] }) ∧
      (∀ j, j ≠ i → (useScale st name).scales[j]? = st.scales[j]?)) := by
  refine ⟨?_, ?_, ?_, ?_⟩
  · intro h1 h2 h3
    unfold useScale
    rw [if_neg h1, if_neg h2, findScale_eq_none_of_no_match h3]
  · unfold useScale
    rw [if_pos rfl]
  · unfold useScale
    rw [if_neg (by decide), if_pos rfl]
  · intro i h1 h2 hfind
    unfold useScale
    rw [if_neg h1, if_neg h2, hfind]
    refine ⟨rfl, rfl, rfl, rfl, ?_, ?_⟩
    · exact drainAt_getElem_self st.scales i
    · intro j hj
      exact drainAt_getElem_other st.scales i j hj

theorem useScale_spec_witness :
    useScale ⟨[(0, 1)], 1, ⟨[], Option.none⟩,
        [⟨"Scale A", [(1, 2)]⟩, ⟨"Scale B", [(3, 4)]⟩], Selection.none⟩ "Scale C" =
      ⟨[(0, 1)], 1, ⟨[], Option.none⟩,
        [⟨"Scale A", [(1, 2)]⟩, ⟨"Scale B", [(3, 4)]⟩], Selection.none⟩ ∧
    (useScale ⟨[(0, 1)], 1, ⟨[], Option.none⟩,
        [⟨"Scale A", [(1, 2)]⟩, ⟨"Scale B", [(3, 4)]⟩], Selection.none⟩ "Scale B").scale =
      Selection.scaleIdx 1 := by
  constructor
  · exact (useScale_spec _ "Scale C").1 (by decide) (by decide) (by decide)
  · exact ((useScale_spec _ "Scale B").2.2.2 1 (by decide) (by decide) (by decide)).2.2.2.1

theorem pairwise_le_of_getLast? {α : Type _} (f : α → ℚ) :
    ∀ {l : List α} {x : α}, l.Pairwise (fun a b => f a < f b) → l.getLast? = some x →
      ∀ p ∈ l, f p ≤ f x := by
  intro l
  induction l with
  | nil =>
    intro x _ h
    simp at h
  | cons a tl ih =>
    intro x hpair hlast p hp
    rcases List.eq_nil_or_concat tl with rfl | ⟨tl0, y, rfl⟩
    · simp only [List.getLast?_singleton, Option.some.injEq] at hlast
      rcases List.mem_singleton.mp hp with rfl
      rw [hlast]
    · simp only [List.concat_eq_append] at hpair hlast hp ih
      have htlne : tl0 ++ [y] ≠ [] := by simp
      rw [getLast?_cons_of_ne_nil a htlne] at hlast
      have htl : (tl0 ++ [y]).Pairwise (fun a b => f a < f b) :=
        (List.pairwise_cons.mp hpair).2
      rcases List.mem_cons.mp hp with rfl | hp2
      · have hxmem : x ∈ tl0 ++ [y] := List.mem_of_mem_getLast? hlast
        exact le_of_lt ((List.pairwise_cons.mp hpair).1 x hxmem)
      · exact ih htl hlast p hp2

theorem dequeExtend_pairwise {cap : ℕ} {l new : List (ℚ × ℚ)}
    {R : (ℚ × ℚ) → (ℚ × ℚ) → Prop} (h : (l ++ new).Pairwise R) :
    (dequeExtend cap l new).Pairwise R :=
  List.Pairwise.sublist (List.drop_sublist _ _) h

theorem dequeExtend_subset {cap : ℕ} (l new : List (ℚ × ℚ)) :
    dequeExtend cap l new ⊆ l ++ new :=
  List.drop_subset _ _

/-- Every key of a downsampled batch whose raw times lie in [H, HH] lies
between the rounded endpoints. -/
theorem downSample_key_bounds {readings : List Reading} {base H HH : ℚ}
    (hb : 0 < base) (hr : ∀ p ∈ readings, H ≤ p.1 ∧ p.1 ≤ HH) :
    ∀ e ∈ _downSampleReadings readings base,
      _round H base ≤ e.1 ∧ e.1 ≤ _round HH base := by
  intro e he
  have hkey : e.1 ∈ (_downSampleReadings readings base).map Prod.fst :=
    List.mem_map_of_mem Prod.fst he
  rcases (downSample_mem_key readings base e.1).mp hkey with ⟨p, hp, hk⟩
  rcases hr p hp with ⟨h1, h2⟩
  exact ⟨hk ▸ _round_mono hb h1, hk ▸ _round_mono hb h2⟩

theorem addReadings_preserves_inv {cap : ℕ} {r : ℚ} (hr : 0 < r) {st : LCState}
    {batch : List Reading} {H HH : ℚ}
    (hinv : BufInv (1/r) st H)
    (hbatch : ∀ p ∈ batch, H ≤ p.1 ∧ p.1 ≤ HH) (hHH : H ≤ HH) :
    BufInv (1/r) (addReadings cap r st batch) HH := by
  have hb : (0:ℚ) < 1/r := by positivity
  rcases hinv with ⟨hsort, hbound⟩
  have hboundHH : ∀ p ∈ st.data, p.1 ≤ _round HH (1/r) :=
    fun p hp => le_trans (hbound p hp) (_round_mono hb hHH)
  by_cases hne : batch = []
  · subst hne
    rw [addReadings_nil]
    exact ⟨hsort, hboundHH⟩
  · obtain ⟨⟨t, v, n⟩, rest, hds⟩ : ∃ e rest, _downSampleReadings batch (1/r) = e :: rest := by
      rcases hx : _downSampleReadings batch (1/r) with _ | ⟨e, rest⟩
      · exact absurd hx (downSample_ne_nil hne (1/r))
      · exact ⟨e, rest, rfl⟩
    have hds_sorted := downSample_sorted_lt batch (1/r)
    have hds_bounds := downSample_key_bounds hb hbatch
    have hkeys_sorted : ((_downSampleReadings batch (1/r)).map
        (fun e => (e.1, e.2.1))).Pairwise (fun p q : ℚ × ℚ => p.1 < q.1) := by
      rw [List.pairwise_map]
      exact hds_sorted
    have hkeys_bound : ∀ p ∈ (_downSampleReadings batch (1/r)).map (fun e => (e.1, e.2.1)),
        p.1 ≤ _round HH (1/r) := by
      intro p hp
      rcases List.mem_map.mp hp with ⟨e, he, rfl⟩
      exact (hds_bounds e he).2
    have ht_mem : ((t, v, n) : ℚ × ℚ × ℕ) ∈ _downSampleReadings batch (1/r) := by
      rw [hds]
      exact List.mem_cons_self _ _
    have ht_lb : _round H (1/r) ≤ t := (hds_bounds _ ht_mem).1
    have ht_ub : t ≤ _round HH (1/r) := (hds_bounds _ ht_mem).2
    rcases hlast : st.data.getLast? with _ | ⟨lastTime, lastVal⟩
    · have hdata_nil : st.data = [] := List.getLast?_eq_none_iff.mp hlast
      rw [addReadings_empty_eq hne hds hlast]
      constructor
      · apply dequeExtend_pairwise
        rw [hdata_nil, List.nil_append, ← hds]
        exact hkeys_sorted
      · intro p hp
        have hsub := dequeExtend_subset st.data
          (((t, v, n) :: rest).map fun e => (e.1, e.2.1)) hp
        rw [hdata_nil, List.nil_append, ← hds] at hsub
        exact hkeys_bound p hsub
    · have hlast_mem : (lastTime, lastVal) ∈ st.data := List.mem_of_mem_getLast? hlast
      have hlast_bound : lastTime ≤ _round H (1/r) := hbound _ hlast_mem
      have hdata_le : ∀ p ∈ st.data, p.1 ≤ lastTime :=
        pairwise_le_of_getLast? Prod.fst hsort hlast
      have ht_ge_last : lastTime ≤ t := le_trans hlast_bound ht_lb
      have hrest_gt : ∀ e ∈ rest, t < e.1 := by
        have h1 := hds_sorted
        rw [hds] at h1
        exact fun e he => (List.pairwise_cons.mp h1).1 e he
      have hrest_sorted : rest.Pairwise (fun a b : ℚ × ℚ × ℕ => a.1 < b.1) := by
        have h1 := hds_sorted
        rw [hds] at h1
        exact (List.pairwise_cons.mp h1).2
      have hrest_bound : ∀ e ∈ rest, e.1 ≤ _round HH (1/r) := by
        intro e he
        exact (hds_bounds e (by rw [hds]; exact List.mem_cons_of_mem _ he)).2
      have hdecomp : st.data.dropLast ++ [(lastTime, lastVal)] = st.data :=
        List.dropLast_append_getLast? _ hlast
      have hdrop_lt : ∀ p ∈ st.data.dropLast, p.1 < lastTime := by
        intro p hp
        have h1 : (st.data.dropLast ++ [(lastTime, lastVal)]).Pairwise
            (fun p q : ℚ × ℚ => p.1 < q.1) := by
          rw [hdecomp]
          exact hsort
        exact (List.pairwise_append.mp h1).2.2 p hp _ (List.mem_singleton_self _)
      by_cases hm : |t - lastTime| < 1/r
      · rw [addReadings_merge_eq hne hds hlast hm]
        have hmax : max t lastTime = t := max_eq_left ht_ge_last
        constructor
        · apply dequeExtend_pairwise
          rw [List.append_assoc]
          apply List.pairwise_append.mpr
          refine ⟨List.Pairwise.sublist (List.dropLast_sublist _) hsort, ?_, ?_⟩
          · apply List.pairwise_append.mpr
            refine ⟨List.pairwise_singleton _ _, ?_, ?_⟩
            · rw [List.pairwise_map]
              exact hrest_sorted
            · intro p hp q hq
              rcases List.mem_singleton.mp hp with rfl
              rcases List.mem_map.mp hq with ⟨e, he, rfl⟩
              simp only [hmax]
              exact hrest_gt e he
          · intro p hp q hq
            have hplt : p.1 < lastTime := hdrop_lt p hp
            rcases List.mem_append.mp hq with hq1 | hq2
            · rcases List.mem_singleton.mp hq1 with rfl
              simp only [hmax]
              exact lt_of_lt_of_le hplt ht_ge_last
            · rcases List.mem_map.mp hq2 with ⟨e, he, rfl⟩
              exact lt_trans (lt_of_lt_of_le hplt ht_ge_last) (hrest_gt e he)
        · intro p hp
          have hsub := dequeExtend_subset _ _ hp
          rcases List.mem_append.mp hsub with hq1 | hq2
          · rcases List.mem_append.mp hq1 with hq3 | hq4
            · exact hboundHH p (List.dropLast_subset _ hq3)
            · rcases List.mem_singleton.mp hq4 with rfl
              simp only [hmax]
              exact ht_ub
          · rcases List.mem_map.mp hq2 with ⟨e, he, rfl⟩
            exact hrest_bound e he
      · rw [addReadings_nomerge_eq hne hds hlast hm]
        have hlt : lastTime < t := by
          have h1 : 1/r ≤ |t - lastTime| := le_of_not_lt hm
          rw [abs_of_nonneg (by linarith)] at h1
          linarith
        constructor
        · apply dequeExtend_pairwise
          apply List.pairwise_append.mpr
          refine ⟨hsort, by rw [← hds]; exact hkeys_sorted, ?_⟩
          intro p hp q hq
          have hple : p.1 ≤ lastTime := hdata_le p hp
          rcases List.mem_map.mp hq with ⟨e, he, rfl⟩
          have hte : t ≤ e.1 := by
            rcases List.mem_cons.mp he with rfl | he2
            · exact le_refl _
            · exact le_of_lt (hrest_gt e he2)
          calc p.1 ≤ lastTime := hple
            _ < t := hlt
            _ ≤ e.1 := hte
        · intro p hp
          have hsub := dequeExtend_subset _ _ hp
          rcases List.mem_append.mp hsub with hq1 | hq2
          · exact hboundHH p hq1
          · rw [← hds] at hq2
            exact hkeys_bound p hq2

/-- C7: with batches arriving in non-decreasing time order, every reachable
Series Buffer state (after any sequence of `addReadings` and `clear`) has
strictly increasing time values — no two entries share a time value — and
this is preserved by each ingest including the overlap merge of a batch
first bucket with the buffer last entry. -/
theorem seriesBuffer_invariant {cap : ℕ} {r : ℚ} (hr : 0 < r) {st : LCState} {H : ℚ}
    (hreach : Reachable cap r st H) :
    st.data.Pairwise (fun p q => p.1 < q.1) := by
  have h : BufInv (1/r) st H := by
    induction hreach with
    | init H => exact ⟨by simp, by simp⟩
    | clear st H H2 hst hle ih => exact ⟨by simp [LCState.clear], by simp [LCState.clear]⟩
    | step st H H2 batch hst hb hle ih => exact addReadings_preserves_inv hr ih hb hle
  exact h.1

theorem seriesBuffer_invariant_witness :
    (addReadings 100000 1 (addReadings 100000 1 ⟨[], 0⟩ [((0:ℚ), 1), (1, 2)])
      [(2, 5)]).data.Pairwise (fun p q => p.1 < q.1) :=
  seriesBuffer_invariant (by norm_num)
    (Reachable.step _ 1 2 [(2, 5)]
      (Reachable.step _ 0 1 [((0:ℚ), 1), (1, 2)] (Reachable.init 0) (by norm_num)
        (by norm_num))
      (by norm_num) (by norm_num))

theorem sorted_lt_key_ext {k1 k2 : List ℚ} (h1 : k1.Pairwise (· < ·))
    (h2 : k2.Pairwise (· < ·)) (hmem : ∀ x, x ∈ k1 ↔ x ∈ k2) : k1 = k2 := by
  haveI : IsAntisymm ℚ (· < ·) := ⟨fun a b hab hba => absurd hba (lt_asymm hab)⟩
  have nd1 : k1.Nodup := h1.imp (fun h => ne_of_lt h)
  have nd2 : k2.Nodup := h2.imp (fun h => ne_of_lt h)
  exact List.eq_of_perm_of_sorted ((List.perm_ext_iff_of_nodup nd1 nd2).mpr hmem) h1 h2

/-- Two strictly key-sorted triple lists whose entries are determined by
their keys through the same function, with the same key sets, are equal. -/
theorem key_determined_ext (f : ℚ → ℚ × ℚ × ℕ) {l1 l2 : List (ℚ × ℚ × ℕ)}
    (h1 : l1.Pairwise (fun a b => a.1 < b.1)) (h2 : l2.Pairwise (fun a b => a.1 < b.1))
    (hf1 : ∀ e ∈ l1, e = f e.1) (hf2 : ∀ e ∈ l2, e = f e.1)
    (hmem : ∀ x, x ∈ l1.map Prod.fst ↔ x ∈ l2.map Prod.fst) : l1 = l2 := by
  have hk : l1.map Prod.fst = l2.map Prod.fst :=
    sorted_lt_key_ext (List.pairwise_map.mpr h1) (List.pairwise_map.mpr h2) hmem
  have e1 : l1.map (fun e => f e.1) = l1 := by
    conv_rhs => rw [← List.map_id l1]
    exact List.map_congr_left (fun e he => (hf1 e he).symm)
  have e2 : l2.map (fun e => f e.1) = l2 := by
    conv_rhs => rw [← List.map_id l2]
    exact List.map_congr_left (fun e he => (hf2 e he).symm)
  calc l1 = l1.map (fun e => f e.1) := e1.symm
    _ = (l1.map Prod.fst).map f := by rw [List.map_map]; rfl
    _ = (l2.map Prod.fst).map f := by rw [hk]
    _ = l2.map (fun e => f e.1) := by rw [List.map_map]; rfl
    _ = l2 := e2

theorem dropLast_drop {α : Type _} (l : List α) (n : ℕ) :
    (l.drop n).dropLast = l.dropLast.drop n := by
  rw [List.dropLast_eq_take, List.dropLast_eq_take, List.drop_take, List.length_drop]
  congr 1
  omega

theorem pairwise_le_of_getLast?_le {α : Type _} (f : α → ℚ) :
    ∀ {l : List α} {x : α}, l.Pairwise (fun a b => f a ≤ f b) → l.getLast? = some x →
      ∀ p ∈ l, f p ≤ f x := by
  intro l
  induction l with
  | nil =>
    intro x _ h
    simp at h
  | cons a tl ih =>
    intro x hpair hlast p hp
    rcases List.eq_nil_or_concat tl with rfl | ⟨tl0, y, rfl⟩
    · simp only [List.getLast?_singleton, Option.some.injEq] at hlast
      rcases List.mem_singleton.mp hp with rfl
      rw [hlast]
    · simp only [List.concat_eq_append] at hpair hlast hp ih
      have htlne : tl0 ++ [y] ≠ [] := by simp
      rw [getLast?_cons_of_ne_nil a htlne] at hlast
      have htl : (tl0 ++ [y]).Pairwise (fun a b => f a ≤ f b) :=
        (List.pairwise_cons.mp hpair).2
      rcases List.mem_cons.mp hp with rfl | hp2
      · have hxmem : x ∈ tl0 ++ [y] := List.mem_of_mem_getLast? hlast
        exact (List.pairwise_cons.mp hpair).1 x hxmem
      · exact ih htl hlast p hp2

theorem pairwise_le_head {l : List ℚ} {a : ℚ} (hpair : (a :: l).Pairwise (· ≤ ·)) :
    ∀ x ∈ a :: l, a ≤ x := by
  intro x hx
  rcases List.mem_cons.mp hx with rfl | hx2
  · exact le_refl _
  · exact (List.pairwise_cons.mp hpair).1 x hx2

theorem bucket_cat_left {L1 L2 : List Reading} {base k : ℚ}
    (hnone : ∀ q ∈ L2, _round q.1 base ≠ k) :
    bucket (L1 ++ L2) base k = bucket L1 base k := by
  unfold bucket
  rw [bucketVals_append, bucketVals_eq_nil hnone, List.append_nil]

theorem bucket_cat_right {L1 L2 : List Reading} {base k : ℚ}
    (hnone : ∀ p ∈ L1, _round p.1 base ≠ k) :
    bucket (L1 ++ L2) base k = bucket L2 base k := by
  unfold bucket
  rw [bucketVals_append, bucketVals_eq_nil hnone, List.nil_append]

/-- Splitting a time-ordered list of readings into two consecutive batches
splits the downsampled list accordingly: if the largest bucket of the first
batch is strictly below the smallest bucket of the second the downsampled
lists concatenate, and if the two buckets coincide the boundary bucket of the
concatenation is the combined bucket. -/
theorem downSample_split {L1 L2 : List Reading} {base : ℚ} (hb : 0 < base)
    (hcross : ∀ p ∈ L1, ∀ q ∈ L2, p.1 ≤ q.1)
    {last1 : ℚ × ℚ × ℕ} {t2 v2 : ℚ} {n2 : ℕ} {rest2 : List (ℚ × ℚ × ℕ)}
    (hlast1 : (_downSampleReadings L1 base).getLast? = some last1)
    (hds2 : _downSampleReadings L2 base = (t2, v2, n2) :: rest2) :
    last1.1 ≤ t2 ∧
    (last1.1 < t2 → _downSampleReadings (L1 ++ L2) base =
      _downSampleReadings L1 base ++ _downSampleReadings L2 base) ∧
    (last1.1 = t2 → _downSampleReadings (L1 ++ L2) base =
      (_downSampleReadings L1 base).dropLast ++ bucket (L1 ++ L2) base t2 :: rest2) := by
  have hs1 := downSample_sorted_lt L1 base
  have hs2 := downSample_sorted_lt L2 base
  have hscat := downSample_sorted_lt (L1 ++ L2) base
  -- keys of each side come from rounds of raw times
  have hkey1 : ∀ e ∈ _downSampleReadings L1 base, ∃ p ∈ L1, _round p.1 base = e.1 :=
    fun e he => (downSample_mem_key L1 base e.1).mp (List.mem_map_of_mem Prod.fst he)
  have hkey2 : ∀ e ∈ _downSampleReadings L2 base, ∃ q ∈ L2, _round q.1 base = e.1 :=
    fun e he => (downSample_mem_key L2 base e.1).mp (List.mem_map_of_mem Prod.fst he)
  have hkc : ∀ e1 ∈ _downSampleReadings L1 base, ∀ e2 ∈ _downSampleReadings L2 base,
      e1.1 ≤ e2.1 := by
    intro e1 he1 e2 he2
    rcases hkey1 e1 he1 with ⟨p, hp, hpk⟩
    rcases hkey2 e2 he2 with ⟨q, hq, hqk⟩
    rw [← hpk, ← hqk]
    exact _round_mono hb (hcross p hp q hq)
  have hlast1_mem : last1 ∈ _downSampleReadings L1 base := List.mem_of_mem_getLast? hlast1
  have hhead2_mem : ((t2, v2, n2) : ℚ × ℚ × ℕ) ∈ _downSampleReadings L2 base := by
    rw [hds2]
    exact List.mem_cons_self _ _
  have hmax1 : ∀ e ∈ _downSampleReadings L1 base, e.1 ≤ last1.1 :=
    pairwise_le_of_getLast? Prod.fst hs1 hlast1
  have hmin2 : ∀ e ∈ _downSampleReadings L2 base, t2 ≤ e.1 := by
    intro e he
    rw [hds2] at he
    rcases List.mem_cons.mp he with rfl | he2
    · exact le_refl _
    · have h1 := hs2
      rw [hds2] at h1
      exact le_of_lt ((List.pairwise_cons.mp h1).1 e he2)
  have hround1 : ∀ p ∈ L1, _round p.1 base ≤ last1.1 := by
    intro p hp
    have hk : _round p.1 base ∈ (_downSampleReadings L1 base).map Prod.fst :=
      (downSample_mem_key L1 base _).mpr ⟨p, hp, rfl⟩
    rcases List.mem_map.mp hk with ⟨e, he, hke⟩
    rw [← hke]
    exact hmax1 e he
  have hround2 : ∀ q ∈ L2, t2 ≤ _round q.1 base := by
    intro q hq
    have hk : _round q.1 base ∈ (_downSampleReadings L2 base).map Prod.fst :=
      (downSample_mem_key L2 base _).mpr ⟨q, hq, rfl⟩
    rcases List.mem_map.mp hk with ⟨e, he, hke⟩
    rw [← hke]
    exact hmin2 e he
  have hle : last1.1 ≤ t2 := hkc last1 hlast1_mem _ hhead2_mem
  have hmemcat : ∀ x, x ∈ (_downSampleReadings (L1 ++ L2) base).map Prod.fst ↔
      (x ∈ (_downSampleReadings L1 base).map Prod.fst ∨
       x ∈ (_downSampleReadings L2 base).map Prod.fst) := by
    intro x
    rw [downSample_mem_key, downSample_mem_key, downSample_mem_key]
    constructor
    · rintro ⟨p, hp, hk⟩
      rcases List.mem_append.mp hp with h | h
      · exact Or.inl ⟨p, h, hk⟩
      · exact Or.inr ⟨p, h, hk⟩
    · rintro (⟨p, hp, hk⟩ | ⟨p, hp, hk⟩)
      · exact ⟨p, List.mem_append_left _ hp, hk⟩
      · exact ⟨p, List.mem_append_right _ hp, hk⟩
  have hentcat := downSample_entries (L1 ++ L2) base
  have hent1 := downSample_entries L1 base
  have hent2 := downSample_entries L2 base
  refine ⟨hle, ?_, ?_⟩
  · -- strictly separated: the downsampled lists concatenate
    intro hlt
    apply key_determined_ext (bucket (L1 ++ L2) base) hscat ?_ hentcat ?_ ?_
    · apply List.pairwise_append.mpr
      refine ⟨hs1, hs2, ?_⟩
      intro e1 he1 e2 he2
      calc e1.1 ≤ last1.1 := hmax1 e1 he1
        _ < t2 := hlt
        _ ≤ e2.1 := hmin2 e2 he2
    · intro e he
      rcases List.mem_append.mp he with h | h
      · have hnone : ∀ q ∈ L2, _round q.1 base ≠ e.1 := by
          intro q hq hk
          have h1 := hround2 q hq
          have h2 := hmax1 e h
          rw [hk] at h1
          have h3 : e.1 < t2 := lt_of_le_of_lt h2 hlt
          linarith
        calc e = bucket L1 base e.1 := hent1 e h
          _ = bucket (L1 ++ L2) base e.1 := (bucket_cat_left hnone).symm
      · have hnone : ∀ p ∈ L1, _round p.1 base ≠ e.1 := by
          intro p hp hk
          have h1 := hround1 p hp
          have h2 := hmin2 e h
          rw [hk] at h1
          have h3 : last1.1 < e.1 := lt_of_lt_of_le hlt h2
          linarith
        calc e = bucket L2 base e.1 := hent2 e h
          _ = bucket (L1 ++ L2) base e.1 := (bucket_cat_right hnone).symm
    · intro x
      rw [hmemcat x, List.map_append, List.mem_append]
  · -- coinciding boundary bucket: merge the two boundary buckets
    intro heq
    have hdec1 : (_downSampleReadings L1 base).dropLast ++ [last1] =
        _downSampleReadings L1 base :=
      List.dropLast_append_getLast? _ hlast1
    have hdrop_lt : ∀ e ∈ (_downSampleReadings L1 base).dropLast, e.1 < last1.1 := by
      intro e he
      have h1 : ((_downSampleReadings L1 base).dropLast ++ [last1]).Pairwise
          (fun a b : ℚ × ℚ × ℕ => a.1 < b.1) := by
        rw [hdec1]
        exact hs1
      exact (List.pairwise_append.mp h1).2.2 e he _ (List.mem_singleton_self _)
    have hrest2_gt : ∀ e ∈ rest2, t2 < e.1 := by
      have h1 := hs2
      rw [hds2] at h1
      exact fun e he => (List.pairwise_cons.mp h1).1 e he
    have hrest2_sorted : rest2.Pairwise (fun a b : ℚ × ℚ × ℕ => a.1 < b.1) := by
      have h1 := hs2
      rw [hds2] at h1
      exact (List.pairwise_cons.mp h1).2
    apply key_determined_ext (bucket (L1 ++ L2) base) hscat ?_ hentcat ?_ ?_
    · apply List.pairwise_append.mpr
      refine ⟨List.Pairwise.sublist (List.dropLast_sublist _) hs1, ?_, ?_⟩
      · apply List.pairwise_cons.mpr
        refine ⟨?_, hrest2_sorted⟩
        intro e he
        exact hrest2_gt e he
      · intro e1 he1 e2 he2
        have h1 : e1.1 < last1.1 := hdrop_lt e1 he1
        rcases List.mem_cons.mp he2 with rfl | he3
        · rw [heq] at h1
          exact h1
        · rw [heq] at h1
          exact lt_trans h1 (hrest2_gt e2 he3)
    · intro e he
      rcases List.mem_append.mp he with h | h
      · have he1 : e ∈ _downSampleReadings L1 base := List.dropLast_subset _ h
        have hnone : ∀ q ∈ L2, _round q.1 base ≠ e.1 := by
          intro q hq hk
          have h1 := hround2 q hq
          have h2 := hdrop_lt e h
          rw [hk] at h1
          rw [heq] at h2
          linarith
        calc e = bucket L1 base e.1 := hent1 e he1
          _ = bucket (L1 ++ L2) base e.1 := (bucket_cat_left hnone).symm
      · rcases List.mem_cons.mp h with hmid | htail
        · rw [hmid]
          rfl
        · have he2 : e ∈ _downSampleReadings L2 base := by
            rw [hds2]
            exact List.mem_cons_of_mem _ htail
          have hnone : ∀ p ∈ L1, _round p.1 base ≠ e.1 := by
            intro p hp hk
            have h1 := hround1 p hp
            have h2 := hrest2_gt e htail
            rw [hk, heq] at h1
            linarith
          calc e = bucket L2 base e.1 := hent2 e he2
            _ = bucket (L1 ++ L2) base e.1 := (bucket_cat_right hnone).symm
    · intro x
      rw [hmemcat x]
      have hk1 : (_downSampleReadings L1 base).map Prod.fst =
          ((_downSampleReadings L1 base).dropLast).map Prod.fst ++ [last1.1] := by
        conv_lhs => rw [← hdec1]
        rw [List.map_append]
        rfl
      have hbfst : (bucket (L1 ++ L2) base t2).1 = t2 := rfl
      rw [hds2, hk1]
      simp only [List.map_append, List.map_cons, List.mem_append, List.mem_singleton,
        List.mem_cons, hbfst, heq]
      tauto

theorem dequeExtend_eq (cap : ℕ) (l new : List (ℚ × ℚ)) :
    dequeExtend cap l new = (l ++ new).drop (l.length + new.length - cap) := rfl

/-- Ingesting two consecutive time-ordered batches from an empty buffer
produces exactly the same buffer contents as ingesting the concatenation in a
single call. -/
theorem batch_split_data_eq {cap : ℕ} {r : ℚ} (hcap : 0 < cap) (hr : 0 < r)
    (L1 L2 : List Reading)
    (hsorted : ((L1 ++ L2).map Prod.fst).Pairwise (· ≤ ·)) :
    (addReadings cap r (addReadings cap r ⟨[], 0⟩ L1) L2).data =
      (addReadings cap r ⟨[], 0⟩ (L1 ++ L2)).data := by
  have hb : (0:ℚ) < 1/r := by positivity
  by_cases h1 : L1 = []
  · subst h1
    rw [addReadings_nil, List.nil_append]
  by_cases h2 : L2 = []
  · subst h2
    rw [addReadings_nil, List.append_nil]
  -- both batches non-empty
  have hcross : ∀ p ∈ L1, ∀ q ∈ L2, p.1 ≤ q.1 := by
    rw [List.map_append] at hsorted
    intro p hp q hq
    exact (List.pairwise_append.mp hsorted).2.2 p.1 (List.mem_map_of_mem Prod.fst hp)
      q.1 (List.mem_map_of_mem Prod.fst hq)
  obtain ⟨⟨t1, v1, n1⟩, rest1, hds1⟩ :
      ∃ e rest, _downSampleReadings L1 (1/r) = e :: rest := by
    rcases hx : _downSampleReadings L1 (1/r) with _ | ⟨e, rest⟩
    · exact absurd hx (downSample_ne_nil h1 (1/r))
    · exact ⟨e, rest, rfl⟩
  obtain ⟨⟨t2, v2, n2⟩, rest2, hds2⟩ :
      ∃ e rest, _downSampleReadings L2 (1/r) = e :: rest := by
    rcases hx : _downSampleReadings L2 (1/r) with _ | ⟨e, rest⟩
    · exact absurd hx (downSample_ne_nil h2 (1/r))
    · exact ⟨e, rest, rfl⟩
  have hD1ne : _downSampleReadings L1 (1/r) ≠ [] := by
    rw [hds1]
    exact List.cons_ne_nil _ _
  have hlast1 : (_downSampleReadings L1 (1/r)).getLast? =
      some ((_downSampleReadings L1 (1/r)).getLast hD1ne) :=
    List.getLast?_eq_getLast_of_ne_nil hD1ne
  set last1 := (_downSampleReadings L1 (1/r)).getLast hD1ne with hlast1_def
  obtain ⟨hle, hsplitlt, hspliteq⟩ := downSample_split hb hcross hlast1 hds2
  have hcatne : L1 ++ L2 ≠ [] := by
    intro h
    exact h1 (List.append_eq_nil.mp h).1
  obtain ⟨⟨tc, vc, nc⟩, restc, hdsc⟩ :
      ∃ e rest, _downSampleReadings (L1 ++ L2) (1/r) = e :: rest := by
    rcases hx : _downSampleReadings (L1 ++ L2) (1/r) with _ | ⟨e, rest⟩
    · exact absurd hx (downSample_ne_nil hcatne (1/r))
    · exact ⟨e, rest, rfl⟩
  -- the two elementary runs from the empty state
  have hrun1 := @addReadings_empty_eq cap r ⟨[], 0⟩ L1 t1 v1 n1 rest1 h1 hds1 rfl
  have hrunc := @addReadings_empty_eq cap r ⟨[], 0⟩ (L1 ++ L2) tc vc nc restc hcatne hdsc rfl
  have hlast1' : ((t1, v1, n1) :: rest1).getLast (List.cons_ne_nil _ _) = last1 := by
    have h := hlast1
    rw [hds1, List.getLast?_eq_getLast_of_ne_nil (List.cons_ne_nil _ _)] at h
    exact Option.some.inj h
  -- the state after the first run
  have hst1_data : (addReadings cap r ⟨[], 0⟩ L1).data =
      ((_downSampleReadings L1 (1/r)).map (fun e => (e.1, e.2.1))).drop
        ((_downSampleReadings L1 (1/r)).length - cap) := by
    rw [hrun1]
    show dequeExtend cap [] _ = _
    rw [dequeExtend_eq, List.nil_append, ← hds1, List.length_nil, List.length_map]
    rw [Nat.zero_add]
  have hst1_nslr : (addReadings cap r ⟨[], 0⟩ L1).numSamplesLastReading = last1.2.2 := by
    rw [hrun1]
    show (((t1, v1, n1) :: rest1).getLast (List.cons_ne_nil _ _)).2.2 = _
    rw [hlast1']
  have hmapne1 : (_downSampleReadings L1 (1/r)).map (fun e => (e.1, e.2.1)) ≠ [] := by
    rw [hds1]
    simp
  have hdrople : (_downSampleReadings L1 (1/r)).length - cap ≤
      ((_downSampleReadings L1 (1/r)).map (fun e => (e.1, e.2.1))).length := by
    rw [List.length_map]
    omega
  have hst1_last : (addReadings cap r ⟨[], 0⟩ L1).data.getLast? =
      some (last1.1, last1.2.1) := by
    rw [hrun1]
    show (dequeExtend cap [] _).getLast? = _
    rw [dequeExtend_getLast? hcap [] (by simp)]
    rw [← hds1, List.getLast?_map, hlast1, Option.map_some']
  have hlen1 : 1 ≤ (_downSampleReadings L1 (1/r)).length := by
    rw [hds1]
    simp
  rw [hrunc]
  show _ = dequeExtend cap [] _
  rw [dequeExtend_eq, List.nil_append, ← hdsc, List.length_nil, Nat.zero_add,
    List.length_map]
  rcases lt_or_eq_of_le hle with hlt | heqk
  · -- separated boundary: the second run takes the append branch
    have hnm : ¬ |t2 - last1.1| < 1/r := by
      have hk1 : last1.1 ∈ (_downSampleReadings L1 (1/r)).map Prod.fst :=
        List.mem_map_of_mem Prod.fst (List.getLast_mem hD1ne)
      rcases (downSample_mem_key L1 (1/r) last1.1).mp hk1 with ⟨p, hp, hpk⟩
      have hk2 : t2 ∈ (_downSampleReadings L2 (1/r)).map Prod.fst := by
        rw [hds2]
        simp
      rcases (downSample_mem_key L2 (1/r) t2).mp hk2 with ⟨q, hq, hqk⟩
      have hne : _round q.1 (1/r) ≠ _round p.1 (1/r) := by
        rw [hpk, hqk]
        exact ne_of_gt hlt
      have hgap := _round_gap hb hne
      rw [hpk, hqk] at hgap
      exact not_lt.mpr hgap
    have hrun2 := @addReadings_nomerge_eq cap r _ L2 t2 v2 n2 rest2 last1.1 last1.2.1
      h2 hds2 hst1_last hnm
    rw [hrun2]
    show dequeExtend cap _ _ = _
    rw [dequeExtend_eq, hst1_data, ← hds2]
    rw [← List.drop_append_of_le_length hdrople]
    rw [← List.map_append, ← hsplitlt hlt, List.drop_drop]
    congr 1
    simp only [List.length_drop, List.length_map, List.length_append]
    have hlc : (_downSampleReadings (L1 ++ L2) (1/r)).length =
        (_downSampleReadings L1 (1/r)).length + (_downSampleReadings L2 (1/r)).length := by
      rw [hsplitlt hlt, List.length_append]
    omega
  · -- coinciding boundary: the second run takes the merge branch
    have hm : |t2 - last1.1| < 1/r := by
      rw [← heqk, sub_self, abs_zero]
      exact hb
    have hrun2 := @addReadings_merge_eq cap r _ L2 t2 v2 n2 rest2 last1.1 last1.2.1
      h2 hds2 hst1_last hm
    rw [hrun2]
    show dequeExtend cap _ _ = _
    rw [dequeExtend_eq, hst1_nslr, hst1_data]
    -- identify the merged pair with the combined boundary bucket
    have hm1pos : 0 < last1.2.2 :=
      downSample_count_pos L1 (1/r) last1 (List.getLast_mem hD1ne)
    have hm2pos : 0 < n2 :=
      downSample_count_pos L2 (1/r) (t2, v2, n2) (by rw [hds2]; exact List.mem_cons_self _ _)
    have hent_last1 : last1 = bucket L1 (1/r) t2 := by
      have h := downSample_entries L1 (1/r) last1 (List.getLast_mem hD1ne)
      rw [heqk] at h
      exact h
    have hent_head2 : ((t2, v2, n2) : ℚ × ℚ × ℕ) = bucket L2 (1/r) t2 :=
      downSample_entries L2 (1/r) _ (by rw [hds2]; exact List.mem_cons_self _ _)
    have hmerged : (max t2 last1.1,
        (last1.2.1 * (last1.2.2 : ℚ) + v2 * (n2 : ℚ)) / ((last1.2.2 : ℚ) + (n2 : ℚ))) =
        ((bucket (L1 ++ L2) (1/r) t2).1, (bucket (L1 ++ L2) (1/r) t2).2.1) := by
      have hmax : max t2 last1.1 = t2 := by
        rw [← heqk]
        exact max_self _
      have hv1 : last1.2.1 = (bucketVals L1 (1/r) t2).sum /
          ((bucketVals L1 (1/r) t2).length : ℚ) := congrArg (fun e => e.2.1) hent_last1
      have hn1 : last1.2.2 = (bucketVals L1 (1/r) t2).length :=
        congrArg (fun e => e.2.2) hent_last1
      have hv2 : v2 = (bucketVals L2 (1/r) t2).sum /
          ((bucketVals L2 (1/r) t2).length : ℚ) := congrArg (fun e => e.2.1) hent_head2
      have hn2 : n2 = (bucketVals L2 (1/r) t2).length :=
        congrArg (fun e => e.2.2) hent_head2
      have hm1q : ((bucketVals L1 (1/r) t2).length : ℚ) ≠ 0 := by
        have hp : 0 < (bucketVals L1 (1/r) t2).length := hn1 ▸ hm1pos
        exact_mod_cast ne_of_gt hp
      have hm2q : ((bucketVals L2 (1/r) t2).length : ℚ) ≠ 0 := by
        have hp : 0 < (bucketVals L2 (1/r) t2).length := hn2 ▸ hm2pos
        exact_mod_cast ne_of_gt hp
      have hsumq : ((bucketVals L1 (1/r) t2).length : ℚ) +
          ((bucketVals L2 (1/r) t2).length : ℚ) ≠ 0 := by
        have hp1 : 0 < (bucketVals L1 (1/r) t2).length := hn1 ▸ hm1pos
        have hp2 : 0 < (bucketVals L2 (1/r) t2).length := hn2 ▸ hm2pos
        have hpn : 0 < (bucketVals L1 (1/r) t2).length +
            (bucketVals L2 (1/r) t2).length := by omega
        have hq : (0:ℚ) < (((bucketVals L1 (1/r) t2).length +
            (bucketVals L2 (1/r) t2).length : ℕ) : ℚ) := by exact_mod_cast hpn
        push_cast at hq
        exact ne_of_gt hq
      apply Prod.ext
      · show max t2 last1.1 = t2
        rw [← heqk]
        exact max_self _
      · show (last1.2.1 * (last1.2.2 : ℚ) + v2 * (n2 : ℚ)) /
            ((last1.2.2 : ℚ) + (n2 : ℚ)) =
          (bucketVals (L1 ++ L2) (1/r) t2).sum /
            ((bucketVals (L1 ++ L2) (1/r) t2).length : ℚ)
        rw [bucketVals_append, List.sum_append, List.length_append, hv1, hv2, hn1, hn2]
        push_cast
        field_simp
    rw [hmerged, dropLast_drop, ← List.map_dropLast]
    have ha_le : (_downSampleReadings L1 (1/r)).length - cap ≤
        (((_downSampleReadings L1 (1/r)).dropLast).map
          (fun e : ℚ × ℚ × ℕ => (e.1, e.2.1))).length := by
      rw [List.length_map, List.length_dropLast]
      omega
    rw [List.append_assoc, List.singleton_append]
    simp only [List.length_append, List.length_drop, List.length_map,
      List.length_dropLast, List.length_singleton, List.length_cons]
    rw [← List.drop_append_of_le_length ha_le, List.drop_drop]
    conv_rhs => rw [hspliteq heqk]
    simp only [List.map_append, List.map_cons]
    congr 1
    simp only [List.length_append, List.length_dropLast, List.length_drop,
      List.length_map, List.length_cons, List.length_nil]
    omega

/-- C1: ingesting two consecutive time-ordered batches one after the other, at
a fixed sample rate, produces a Series Buffer with no duplicate timestamps
(strictly increasing times) and exactly the same contents — hence the same
total reading count — as ingesting the full concatenation in a single
`addReadings` call from the same empty buffer. -/
theorem batch_split_invariance {cap : ℕ} {r : ℚ} (hcap : 0 < cap) (hr : 0 < r)
    (L1 L2 : List Reading)
    (hsorted : ((L1 ++ L2).map Prod.fst).Pairwise (· ≤ ·)) :
    (addReadings cap r (addReadings cap r ⟨[], 0⟩ L1) L2).data =
      (addReadings cap r ⟨[], 0⟩ (L1 ++ L2)).data ∧
    (addReadings cap r (addReadings cap r ⟨[], 0⟩ L1) L2).data.Pairwise
      (fun p q => p.1 < q.1) ∧
    (addReadings cap r (addReadings cap r ⟨[], 0⟩ L1) L2).data.length =
      (addReadings cap r ⟨[], 0⟩ (L1 ++ L2)).data.length := by
  have hdata := batch_split_data_eq hcap hr L1 L2 hsorted
  refine ⟨hdata, ?_, by rw [hdata]⟩
  rw [hdata]
  by_cases hne : L1 ++ L2 = []
  · rw [hne, addReadings_nil]
    simp
  · have htsne : (L1 ++ L2).map Prod.fst ≠ [] := by
      simpa using hne
    obtain ⟨h0, rest0, hc⟩ := List.exists_cons_of_ne_nil htsne
    have hhead : ∀ x ∈ (L1 ++ L2).map Prod.fst, h0 ≤ x := by
      rw [hc] at hsorted ⊢
      exact pairwise_le_head hsorted
    have hlast? : ((L1 ++ L2).map Prod.fst).getLast? =
        some (((L1 ++ L2).map Prod.fst).getLast htsne) :=
      List.getLast?_eq_getLast_of_ne_nil htsne
    have hlastb : ∀ x ∈ (L1 ++ L2).map Prod.fst,
        x ≤ ((L1 ++ L2).map Prod.fst).getLast htsne :=
      pairwise_le_of_getLast?_le id hsorted hlast?
    have hbounds : ∀ p ∈ L1 ++ L2,
        h0 ≤ p.1 ∧ p.1 ≤ ((L1 ++ L2).map Prod.fst).getLast htsne :=
      fun p hp => ⟨hhead p.1 (List.mem_map_of_mem Prod.fst hp),
        hlastb p.1 (List.mem_map_of_mem Prod.fst hp)⟩
    have hHle : h0 ≤ ((L1 ++ L2).map Prod.fst).getLast htsne := by
      apply hlastb
      rw [hc]
      exact List.mem_cons_self _ _
    have hinv := @addReadings_preserves_inv cap r hr ⟨[], 0⟩ (L1 ++ L2) h0
      (((L1 ++ L2).map Prod.fst).getLast htsne) ⟨by simp, by simp⟩ hbounds hHle
    exact hinv.1

theorem batch_split_invariance_witness :
    (addReadings 100000 1 (addReadings 100000 1 ⟨[], 0⟩ [((0:ℚ), 1), (1, 2)])
      [((1:ℚ), 4), (2, 6)]).data =
      (addReadings 100000 1 ⟨[], 0⟩
        ([((0:ℚ), 1), (1, 2)] ++ [((1:ℚ), 4), (2, 6)])).data :=
  (batch_split_invariance (by norm_num) (by norm_num) [((0:ℚ), 1), (1, 2)]
    [((1:ℚ), 4), (2, 6)] (by norm_num [List.pairwise_cons])).1
